import Mathlib

/-!
Verification development for the Go game engine (rules engine, evaluator,
candidate ranking and adversarial search).

The definitions below are a shallow embedding of the JavaScript sources
`js/gameLogic.js`, `js/heuristics.js` and `js/aiLogic.js`:
* the board is a `List (List Cell)` mirroring the 2D array `board[row][col]`,
  and the global `BOARD_SIZE` is threaded as an explicit parameter `N`;
* in-place mutation becomes functional update (`setCell`); `copyBoard`
  becomes the identity on immutable values and is therefore not written;
* JavaScript `Set`s of position keys become `List Pos` with
  membership-checked insertion (same set semantics, no duplicates);
* the stack-based flood fill of `getGroup` gets an explicit fuel argument
  (`5*N*N+1`), which is shown to be sufficient in the proofs;
* numeric scores are exact rationals `ℚ`; the `-Infinity` / `Infinity`
  sentinels of the search become `⊥` / `⊤` in `WithBot (WithTop ℚ)`;
* the wall-clock deadline checks (`deadline && performance.now() > deadline`)
  are abstracted by a boolean `timeUp` that is constant during one search
  call: `timeUp = false` models `maxTimeMs = 0` (no deadline, every check
  false), `timeUp = true` models a deadline already in the past at entry
  (every check true);
* the performance counters (`performanceStats`) and console logging are
  omitted: they do not influence any computed value.
-/

/-- Board cell states: `EMPTY = 0`, `BLACK = 1`, `WHITE = 2`. -/
inductive Cell where
  | empty : Cell
  | black : Cell
  | white : Cell
deriving DecidableEq, Repr

/-- A player is one of the two stone colors. -/
inductive Player where
  | black : Player
  | white : Player
deriving DecidableEq, Repr

/-- The cell value a player's stones have on the board. -/
def Player.cell : Player → Cell
  | Player.black => Cell.black
  | Player.white => Cell.white

/-- `player === BLACK ? WHITE : BLACK` — the opposing player. -/
def opponent : Player → Player
  | Player.black => Player.white
  | Player.white => Player.black

/-- A board position `[row, col]`. -/
abbrev Pos := Nat × Nat

/-- The board: `board[row][col]` is a cell state. -/
abbrev Board := List (List Cell)

/-- Read `board[row][col]` (out-of-range reads default to `empty`;
the sources only read in-bounds cells). -/
def cellAt (board : Board) (row col : Nat) : Cell :=
  (board.getD row []).getD col Cell.empty

/-- Write `board[row][col] = v` (functional update of the 2D array). -/
def setCell (board : Board) (row col : Nat) (v : Cell) : Board :=
  board.set row ((board.getD row []).set col v)

/-- Well-formedness: the board is an `N × N` grid, as `initializeBoard`
produces and every mutation preserves. -/
def BoardWF (N : Nat) (board : Board) : Prop :=
  board.length = N ∧ ∀ row ∈ board, row.length = N

instance (N : Nat) (board : Board) : Decidable (BoardWF N board) := by
  unfold BoardWF; infer_instance

/-- All board positions in row-major order, as scanned by the
`for (row) for (col)` loops of the sources. -/
def rowMajor (N : Nat) : List Pos :=
  (List.range N).flatMap (fun row => (List.range N).map (fun col => (row, col)))

/-- `getNeighbors(row, col)`: in-bounds orthogonal neighbors, in the
source's order up, down, left, right. -/
def getNeighbors (N : Nat) (row col : Nat) : List Pos :=
  let directions : List (Int × Int) := [(-1, 0), (1, 0), (0, -1), (0, 1)]
  directions.filterMap (fun d =>
    let newRow : Int := (row : Int) + d.1
    let newCol : Int := (col : Int) + d.2
    if 0 ≤ newRow ∧ newRow < (N : Int) ∧ 0 ≤ newCol ∧ newCol < (N : Int) then
      some (newRow.toNat, newCol.toNat)
    else none)

/-- The while-loop of `getGroup`: depth-first flood fill with an explicit
stack. `visited` is the visited set; the group list is built in pop order
(accumulated reversed, restored by `reverse` on exit). The `fuel` argument
makes the recursion structural; `5*N*N+1` steps are proven sufficient. -/
def getGroupGo (N : Nat) (board : Board) (color : Cell) :
    Nat → List Pos → List Pos → List Pos → List Pos
  | 0, _, _, group => group.reverse
  | _ + 1, [], _, group => group.reverse
  | fuel + 1, p :: stack, visited, group =>
    if visited.contains p then
      getGroupGo N board color fuel stack visited group
    else
      let newStack :=
        (getNeighbors N p.1 p.2).foldl (fun st q =>
          if cellAt board q.1 q.2 = color ∧ ¬ (p :: visited).contains q then
            q :: st
          else st) stack
      getGroupGo N board color fuel newStack (p :: visited) (p :: group)

/-- `getGroup(board, row, col)`: all stones in the connected same-colored
group of `(row, col)`; `[]` if the cell is empty. -/
def getGroup (N : Nat) (board : Board) (row col : Nat) : List Pos :=
  let color := cellAt board row col
  if color = Cell.empty then []
  else getGroupGo N board color (5 * N * N + 1) [(row, col)] [] []

/-- `countLiberties(board, group)`: the number of distinct empty positions
adjacent to the group (the source collects them in a `Set`). -/
def countLiberties (N : Nat) (board : Board) (group : List Pos) : Nat :=
  (group.foldl (fun libs p =>
    (getNeighbors N p.1 p.2).foldl (fun acc q =>
      if cellAt board q.1 q.2 = Cell.empty ∧ ¬ acc.contains q then q :: acc
      else acc) libs) []).length

/-- `removeCapturedGroups(board, opponentColor)`: scan the board row-major,
flood-fill each unvisited opponent stone's group, and clear groups with
zero liberties; returns the new board and the number of stones removed. -/
def removeCapturedGroups (N : Nat) (board : Board) (opponentColor : Cell) :
    Board × Nat :=
  let final := (rowMajor N).foldl (fun st p =>
    let b := st.1
    let visited := st.2.1
    let count := st.2.2
    if cellAt b p.1 p.2 = opponentColor ∧ ¬ visited.contains p then
      let group := getGroup N b p.1 p.2
      let visited2 := visited ++ group
      if countLiberties N b group = 0 then
        (group.foldl (fun bb q => setCell bb q.1 q.2 Cell.empty) b,
          visited2, count + group.length)
      else (b, visited2, count)
    else st) (board, ([] : List Pos), 0)
  (final.1, final.2.2)

/-- `isLegalMove(board, row, col, player)`: the cell must be empty, and after
placing the stone on a copy and resolving captures against the opponent, the
mover's own group must have a liberty unless at least one stone was captured. -/
def isLegalMove (N : Nat) (board : Board) (row col : Nat) (player : Player) :
    Bool :=
  if cellAt board row col ≠ Cell.empty then false
  else
    let testBoard := setCell board row col player.cell
    let res := removeCapturedGroups N testBoard (opponent player).cell
    let playerGroup := getGroup N res.1 row col
    let playerLiberties := countLiberties N res.1 playerGroup
    if playerLiberties = 0 ∧ res.2 = 0 then false
    else true

/-- The mutable `game` object of `gameLogic.js`. The `captured` map keyed by
color becomes two fields. -/
structure GameState where
  board : Board
  currentPlayer : Player
  capturedBlack : Nat
  capturedWhite : Nat
  consecutivePasses : Nat
  gameOver : Bool
deriving DecidableEq, Repr

/-- `game.captured[player]` as a read. -/
def GameState.captured (s : GameState) : Player → Nat
  | Player.black => s.capturedBlack
  | Player.white => s.capturedWhite

/-- `game.captured[player] += n`. -/
def GameState.addCaptured (s : GameState) (player : Player) (n : Nat) :
    GameState :=
  match player with
  | Player.black => { s with capturedBlack := s.capturedBlack + n }
  | Player.white => { s with capturedWhite := s.capturedWhite + n }

/-- `makeMove(row, col, player)`: reject if illegal (state untouched);
otherwise place the stone, resolve captures, credit them to the mover, reset
the pass counter and switch players. Returns the JS boolean result paired
with the updated state. -/
def makeMove (N : Nat) (s : GameState) (row col : Nat) (player : Player) :
    Bool × GameState :=
  if ¬ isLegalMove N s.board row col player then (false, s)
  else
    let board1 := setCell s.board row col player.cell
    let opp := opponent player
    let res := removeCapturedGroups N board1 opp.cell
    let s1 := { (s.addCaptured player res.2) with
      board := res.1
      consecutivePasses := 0
      currentPlayer := opp }
    (true, s1)

/-- The result record built by `endGame`. -/
structure GameResult where
  blackScore : Nat
  whiteScore : Nat
  winner : String
  historyWinner : String
deriving DecidableEq, Repr

/-- `board.flat().filter(c => c === v).length`. -/
def countCells (board : Board) (v : Cell) : Nat :=
  (board.flatten.filter (fun c => c = v)).length

/-- `endGame()`: mark the game over and score it — stones on board plus
captures for each color; strictly greater score wins, equality is a tie. -/
def endGame (s : GameState) : GameState × GameResult :=
  let s2 := { s with gameOver := true }
  let blackStones := countCells s2.board Cell.black
  let whiteStones := countCells s2.board Cell.white
  let blackScore := blackStones + s2.capturedBlack
  let whiteScore := whiteStones + s2.capturedWhite
  let result : GameResult :=
    if blackScore > whiteScore then
      { blackScore := blackScore, whiteScore := whiteScore,
        winner := "Black", historyWinner := "black" }
    else if whiteScore > blackScore then
      { blackScore := blackScore, whiteScore := whiteScore,
        winner := "White", historyWinner := "white" }
    else
      { blackScore := blackScore, whiteScore := whiteScore,
        winner := "Tie", historyWinner := "draw" }
  (s2, result)

/-- `passMove()`: increment the pass counter, switch players, and end the
game once two consecutive passes occur. -/
def passMove (s : GameState) : GameState :=
  let s2 := { s with
    consecutivePasses := s.consecutivePasses + 1
    currentPlayer := opponent s.currentPlayer }
  if s2.consecutivePasses ≥ 2 then (endGame s2).1 else s2

/-- `getLegalMoves(board, player)`: row-major list of positions where
`isLegalMove` holds. -/
def getLegalMoves (N : Nat) (board : Board) (player : Player) : List Pos :=
  (rowMajor N).filter (fun p => isLegalMove N board p.1 p.2 player)

/-- `findAllGroups(board, player)`: partition the player's stones into
groups by repeated flood fill with a shared visited set (from
`heuristics.js`). -/
def findAllGroups (N : Nat) (board : Board) (player : Cell) :
    List (List Pos) :=
  ((rowMajor N).foldl (fun acc p =>
    if cellAt board p.1 p.2 = player ∧ ¬ acc.2.contains p then
      let g := getGroup N board p.1 p.2
      (acc.1 ++ [g], acc.2 ++ g)
    else acc) (([] : List (List Pos)), ([] : List Pos))).1

/-- The per-stone center-proximity bonus
`Math.max(0, BOARD_SIZE / 3 - cd / 2)` with
`cd = |r - BOARD_SIZE/2| + |c - BOARD_SIZE/2|`, as an exact rational. -/
def centerBonus (N r c : Nat) : ℚ :=
  max 0 ((N : ℚ) / 3 - (|(r : ℚ) - (N : ℚ) / 2| + |(c : ℚ) - (N : ℚ) / 2|) / 2)

/-- `Math.min(r, c, N - 1 - r, N - 1 - c)`: distance to the nearest edge. -/
def edgeDist (N r c : Nat) : Nat :=
  min (min r c) (min (N - 1 - r) (N - 1 - c))

/-- The corner test `(r === 0 || r === N-1) && (c === 0 || c === N-1)`. -/
def isCorner (N r c : Nat) : Prop :=
  (r = 0 ∨ r = N - 1) ∧ (c = 0 ∨ c = N - 1)

instance (N r c : Nat) : Decidable (isCorner N r c) := by
  unfold isCorner; infer_instance

/-- `evaluatePosition(board, player)` from `heuristics.js`: stone balance
(×10), group safety and pressure via liberties, and positional influence
(center bonus, +3 edge, +5 corner) mirrored with negative sign for the
opponent. Scores are exact rationals. -/
def evaluatePosition (N : Nat) (board : Board) (player : Player) : ℚ :=
  let opp := opponent player
  let playerStones := countCells board player.cell
  let oppStones := countCells board opp.cell
  let score : ℚ := ((playerStones : ℚ) - (oppStones : ℚ)) * 10
  let score := (findAllGroups N board player.cell).foldl (fun s g =>
    let libs := countLiberties N board g
    if libs = 1 then s - (g.length : ℚ) * 5
    else if libs ≥ 3 then s + (g.length : ℚ) * 2
    else s) score
  let score := (findAllGroups N board opp.cell).foldl (fun s g =>
    let libs := countLiberties N board g
    if libs = 1 then s + (g.length : ℚ) * 5
    else if libs ≥ 3 then s - (g.length : ℚ) * 2
    else s) score
  (rowMajor N).foldl (fun s p =>
    if cellAt board p.1 p.2 = player.cell then
      let s := s + centerBonus N p.1 p.2
      let s := if edgeDist N p.1 p.2 = 0 then s + 3 else s
      if isCorner N p.1 p.2 then s + 5 else s
    else if cellAt board p.1 p.2 = opp.cell then
      let s := s - centerBonus N p.1 p.2
      let s := if edgeDist N p.1 p.2 = 0 then s - 3 else s
      if isCorner N p.1 p.2 then s - 5 else s
    else s) score

/-- Placing a stone and resolving the opponent's captures on a board copy:
the `copyBoard` / `board[r][c] = player` / `removeCapturedGroups` sequence
shared by the search functions. -/
def playAndCapture (N : Nat) (board : Board) (player : Player) (m : Pos) :
    Board :=
  (removeCapturedGroups N (setCell board m.1 m.2 player.cell)
    (opponent player).cell).1

/-- `scoreMoveHeuristic(board, row, col, player)`: captures (×100) dominate,
then center influence (×2), friendly neighbors (×3) and enemy neighbors. -/
def scoreMoveHeuristic (N : Nat) (board : Board) (row col : Nat)
    (player : Player) : ℚ :=
  let opp := opponent player
  let b := setCell board row col player.cell
  let captured := (removeCapturedGroups N b opp.cell).2
  let cb := centerBonus N row col
  let neighbors := getNeighbors N row col
  let friend :=
    (neighbors.filter (fun q => cellAt board q.1 q.2 = player.cell)).length
  let foe :=
    (neighbors.filter (fun q => cellAt board q.1 q.2 = opp.cell)).length
  (captured : ℚ) * 100 + cb * 2 + (friend : ℚ) * 3 + (foe : ℚ)

/-- The AI algorithm selector (`aiSettings.algorithm`). -/
inductive Algorithm where
  | minimax : Algorithm
  | alphabeta : Algorithm
deriving DecidableEq, Repr

/-- The `aiSettings` global consumed by the candidate ranking and search.
`maxTimeMs = 0` means no time cap. -/
structure AISettings where
  algorithm : Algorithm
  depth : Nat
  maxTimeMs : Nat
  maxCandidatesBase : Nat
deriving DecidableEq, Repr

/-- The candidate cap of `getCandidateMoves`:
`cap = base - max(0, depth-2)*3`, `+2` when the board side is at least 19,
then clamped into `[6, base]`; `base` and `depth` fall back to 16 and 2
when the corresponding setting is 0 (the `|| 16` / `|| 2` defaults).
Computed over `Int` exactly as JS integer arithmetic does. -/
def candidateCap (N : Nat) (s : AISettings) : Nat :=
  let base : Int := (if s.maxCandidatesBase = 0 then 16 else s.maxCandidatesBase)
  let depth : Int := (if s.depth = 0 then 2 else s.depth)
  let cap := base - (max 0 (depth - 2)) * 3
  let cap := if (19 : Int) ≤ (N : Int) then cap + 2 else cap
  (max 6 (min cap base)).toNat

/-- Insert a scored move into a descending-sorted list, after all entries
with an equal or higher score (the stable position). -/
def insertScored (x : Pos × ℚ) : List (Pos × ℚ) → List (Pos × ℚ)
  | [] => [x]
  | y :: ys => if y.2 < x.2 then x :: y :: ys else y :: insertScored x ys

/-- Stable sort by descending score, modeling
`scored.sort((a, b) => b.score - a.score)` (`Array.prototype.sort` is
stable, and a stable sort is extensionally unique, so stable insertion
sort computes the same list). -/
def sortScoredDesc (l : List (Pos × ℚ)) : List (Pos × ℚ) :=
  l.foldl (fun acc x => insertScored x acc) []

/-- `getCandidateMoves(board, player, forRoot)` from `heuristics.js`:
score all legal moves, sort descending (stable, as `Array.prototype.sort`),
and trim to the cap (root) or `max(8, floor(cap*0.75))` (interior); a legal
move list of length ≤ 1 is returned untrimmed. -/
def getCandidateMoves (N : Nat) (board : Board) (player : Player)
    (forRoot : Bool) (s : AISettings) : List Pos :=
  let legal := getLegalMoves N board player
  if legal.length ≤ 1 then legal
  else
    let scored := legal.map (fun p =>
      (p, scoreMoveHeuristic N board p.1 p.2 player))
    let sorted := sortScoredDesc scored
    let cap := candidateCap N s
    let keep := if forRoot then cap else max 8 ((3 * cap) / 4)
    (sorted.take keep).map (fun x => x.1)

/-- Search scores: rationals extended with the `-Infinity` / `Infinity`
sentinels of the JS search. -/
abbrev E := WithBot (WithTop ℚ)

/-- Embed an evaluation score into the extended score order. -/
def toE (q : ℚ) : E := ((q : WithTop ℚ) : E)

/-- The maximizing loop of `minimax`: track the best score and the first
move attaining it (strict `score > maxScore` improvement). `f m` is the
recursive evaluation of the child reached by move `m`. -/
def mmMaxGo (f : Pos → E) : List Pos → E → Option Pos → E × Option Pos
  | [], best, bm => (best, bm)
  | m :: rest, best, bm =>
    let score := f m
    if best < score then mmMaxGo f rest score (some m)
    else mmMaxGo f rest best bm

/-- The minimizing loop of `minimax` (strict `score < minScore`). -/
def mmMinGo (f : Pos → E) : List Pos → E → Option Pos → E × Option Pos
  | [], best, bm => (best, bm)
  | m :: rest, best, bm =>
    let score := f m
    if score < best then mmMinGo f rest score (some m)
    else mmMinGo f rest best bm

/-- `minimax(board, depth, player, isMaximizing, originalPlayer)`: plain
game-tree search over the full legal move list, evaluating leaves from the
original player's perspective. -/
def minimax (N : Nat) (depth : Nat) (board : Board) (player : Player)
    (isMaximizing : Bool) (originalPlayer : Player) : E × Option Pos :=
  match depth with
  | 0 => (toE (evaluatePosition N board originalPlayer), none)
  | d + 1 =>
    let possibleMoves := getLegalMoves N board player
    if possibleMoves.isEmpty then
      (toE (evaluatePosition N board originalPlayer), none)
    else
      let f := fun (m : Pos) =>
        (minimax N d (playAndCapture N board player m) (opponent player)
          (!isMaximizing) originalPlayer).1
      if isMaximizing then mmMaxGo f possibleMoves ⊥ none
      else mmMinGo f possibleMoves ⊤ none

/-- The maximizing loop of `minimaxAlphaBeta`: the per-iteration deadline
check, the strict best-score update, `alpha = max(alpha, score)`, and the
`beta <= alpha` cutoff. `f m alpha beta` is the recursive child call. -/
def abMaxGo (f : Pos → E → E → E) (timeUp : Bool) (beta : E) :
    List Pos → E → E → Option Pos → E × Option Pos
  | [], _, best, bm => (best, bm)
  | m :: rest, alpha, best, bm =>
    if timeUp then (best, bm)
    else
      let score := f m alpha beta
      let best2 := if best < score then score else best
      let bm2 := if best < score then some m else bm
      let alpha2 := max alpha score
      if beta ≤ alpha2 then (best2, bm2)
      else abMaxGo f timeUp beta rest alpha2 best2 bm2

/-- The minimizing loop of `minimaxAlphaBeta`: `beta = min(beta, score)`
and the `beta <= alpha` cutoff. -/
def abMinGo (f : Pos → E → E → E) (timeUp : Bool) (alpha : E) :
    List Pos → E → E → Option Pos → E × Option Pos
  | [], _, best, bm => (best, bm)
  | m :: rest, beta, best, bm =>
    if timeUp then (best, bm)
    else
      let score := f m alpha beta
      let best2 := if score < best then score else best
      let bm2 := if score < best then some m else bm
      let beta2 := min beta score
      if beta2 ≤ alpha then (best2, bm2)
      else abMinGo f timeUp alpha rest beta2 best2 bm2

/-- `minimaxAlphaBeta(board, depth, player, isMaximizing, alpha, beta,
originalPlayer, deadline)`: alpha-beta search over the ordered, trimmed
candidate moves, with the node-entry deadline cutoff. -/
def minimaxAlphaBeta (N : Nat) (s : AISettings) (timeUp : Bool)
    (depth : Nat) (board : Board) (player : Player) (isMaximizing : Bool)
    (alpha beta : E) (originalPlayer : Player) : E × Option Pos :=
  match depth with
  | 0 => (toE (evaluatePosition N board originalPlayer), none)
  | d + 1 =>
    if timeUp then (toE (evaluatePosition N board originalPlayer), none)
    else
      let possibleMoves := getCandidateMoves N board player false s
      if possibleMoves.isEmpty then
        (toE (evaluatePosition N board originalPlayer), none)
      else
        let f := fun (m : Pos) (a b : E) =>
          (minimaxAlphaBeta N s timeUp d (playAndCapture N board player m)
            (opponent player) (!isMaximizing) a b originalPlayer).1
        if isMaximizing then abMaxGo f timeUp beta possibleMoves alpha ⊥ none
        else abMinGo f timeUp alpha possibleMoves beta ⊤ none

/-- The root loop of `findBestMove`: per-child deadline check and strict
best-score tracking, starting from `-Infinity`. -/
def rootGo (f : Pos → E) (timeUp : Bool) :
    List Pos → E → Option Pos → E × Option Pos
  | [], best, bm => (best, bm)
  | m :: rest, best, bm =>
    if timeUp then (best, bm)
    else
      let score := f m
      if best < score then rootGo f timeUp rest score (some m)
      else rootGo f timeUp rest best bm

/-- The body of `findBestMove`: root candidates, one-ply expansion of each
root child and the configured search on the resulting position, returning
the internal `(bestScore, bestMove)` pair. -/
def findBestSearch (N : Nat) (board : Board) (player : Player)
    (s : AISettings) (timeUp : Bool) : E × Option Pos :=
  let rootMoves := getCandidateMoves N board player true s
  let f := fun (m : Pos) =>
    let newBoard := playAndCapture N board player m
    if s.algorithm = Algorithm.minimax then
      (minimax N (s.depth - 1) newBoard (opponent player) false player).1
    else
      (minimaxAlphaBeta N s timeUp (s.depth - 1) newBoard (opponent player)
        false ⊥ ⊤ player).1
  rootGo f timeUp rootMoves ⊥ none

/-- `findBestMove(board, player)`: the best root move, falling back to the
first candidate when the deadline expired before any child was scored;
`none` only when there are no candidates. -/
def findBestMove (N : Nat) (board : Board) (player : Player)
    (s : AISettings) (timeUp : Bool) : Option Pos :=
  let rootMoves := getCandidateMoves N board player true s
  let r := findBestSearch N board player s timeUp
  match r.2 with
  | some m => some m
  | none => rootMoves.head?

/-- Reference definition for the alpha-beta equivalence analysis: plain
minimax recursion over the same ordered, trimmed candidate lists that
`minimaxAlphaBeta` searches (`getCandidateMoves`, interior trim). -/
def minimaxOverCandidates (N : Nat) (s : AISettings) (depth : Nat)
    (board : Board) (player : Player) (isMaximizing : Bool)
    (originalPlayer : Player) : E × Option Pos :=
  match depth with
  | 0 => (toE (evaluatePosition N board originalPlayer), none)
  | d + 1 =>
    let possibleMoves := getCandidateMoves N board player false s
    if possibleMoves.isEmpty then
      (toE (evaluatePosition N board originalPlayer), none)
    else
      let f := fun (m : Pos) =>
        (minimaxOverCandidates N s d (playAndCapture N board player m)
          (opponent player) (!isMaximizing) originalPlayer).1
      if isMaximizing then mmMaxGo f possibleMoves ⊥ none
      else mmMinGo f possibleMoves ⊤ none

/-- The driver of `findBestMove` with the reference candidate-minimax in
place of `minimaxAlphaBeta` (same root candidates, same root loop). -/
def findBestSearchOverCandidates (N : Nat) (board : Board) (player : Player)
    (s : AISettings) : E × Option Pos :=
  let rootMoves := getCandidateMoves N board player true s
  let f := fun (m : Pos) =>
    (minimaxOverCandidates N s (s.depth - 1) (playAndCapture N board player m)
      (opponent player) false player).1
  rootGo f false rootMoves ⊥ none

/-- The material component of `evaluatePosition`:
`(playerStones - oppStones) * 10`. -/
def materialScore (board : Board) (player : Player) : ℚ :=
  ((countCells board player.cell : ℚ) -
    (countCells board (opponent player).cell : ℚ)) * 10

/-- The group-safety contribution of one of the evaluated player's own
groups: atari costs `5×size`, three or more liberties earn `2×size`. -/
def ownGroupTerm (N : Nat) (board : Board) (g : List Pos) : ℚ :=
  if countLiberties N board g = 1 then -((g.length : ℚ) * 5)
  else if countLiberties N board g ≥ 3 then (g.length : ℚ) * 2
  else 0

/-- The group-safety contribution of an opponent group (mirrored sign). -/
def oppGroupTerm (N : Nat) (board : Board) (g : List Pos) : ℚ :=
  if countLiberties N board g = 1 then (g.length : ℚ) * 5
  else if countLiberties N board g ≥ 3 then -((g.length : ℚ) * 2)
  else 0

/-- The group-safety component of `evaluatePosition`, as a sum over the
two group lists. -/
def groupSafetyScore (N : Nat) (board : Board) (player : Player) : ℚ :=
  ((findAllGroups N board player.cell).map (ownGroupTerm N board)).sum +
    ((findAllGroups N board (opponent player).cell).map
      (oppGroupTerm N board)).sum

/-- The per-stone positional term of `evaluatePosition`: center bonus,
flat +3 on the edge, flat +5 in a corner. -/
def influenceTerm (N : Nat) (p : Pos) : ℚ :=
  centerBonus N p.1 p.2 + (if edgeDist N p.1 p.2 = 0 then 3 else 0) +
    (if isCorner N p.1 p.2 then 5 else 0)

/-- The per-cell positional contribution: `+influenceTerm` for the
evaluated player's stones, `-influenceTerm` for opponent stones, 0 for
empty cells. -/
def signedInfluence (N : Nat) (board : Board) (player : Player) (p : Pos) :
    ℚ :=
  if cellAt board p.1 p.2 = player.cell then influenceTerm N p
  else if cellAt board p.1 p.2 = (opponent player).cell then
    -(influenceTerm N p)
  else 0

/-- The positional-influence component exactly as the specification words
it: per own stone `max(0, N/3 - manhattanDistanceToCenter/2)`, a flat +3
on the board edge (first or last row or column) and a flat +5 in a corner,
mirrored with negative sign for opponent stones. -/
def influenceSpec (N : Nat) (board : Board) (player : Player) : ℚ :=
  ((rowMajor N).map (fun p =>
    if cellAt board p.1 p.2 = player.cell then
      max 0 ((N : ℚ) / 3 -
          (|(p.1 : ℚ) - (N : ℚ) / 2| + |(p.2 : ℚ) - (N : ℚ) / 2|) / 2) +
        (if p.1 = 0 ∨ p.1 = N - 1 ∨ p.2 = 0 ∨ p.2 = N - 1 then 3 else 0) +
        (if isCorner N p.1 p.2 then 5 else 0)
    else if cellAt board p.1 p.2 = (opponent player).cell then
      -(max 0 ((N : ℚ) / 3 -
            (|(p.1 : ℚ) - (N : ℚ) / 2| + |(p.2 : ℚ) - (N : ℚ) / 2|) / 2) +
          (if p.1 = 0 ∨ p.1 = N - 1 ∨ p.2 = 0 ∨ p.2 = N - 1 then 3 else 0) +
          (if isCorner N p.1 p.2 then 5 else 0))
    else 0)).sum

/-- The candidate cap exactly as the code computes it, in closed form (for
nonzero base and depth, where the fallbacks are inert): the side-at-least-19
bonus of 2 is added to the quantity being clamped, before clamping into
`[6, base]`, so the cap can never exceed `base`. -/
def codeCandidateCap (N : Nat) (s : AISettings) : Nat :=
  (max 6 (min ((s.maxCandidatesBase : Int) - 3 * max 0 ((s.depth : Int) - 2) +
    (if 19 ≤ (N : Int) then 2 else 0)) (s.maxCandidatesBase : Int))).toNat

/-- The candidate cap as the specification and the claim word it:
`clamp(base - max(0, depth-2)*3, 6, base)` with `base = maxCandidatesBase`,
where 2 is added to the already clamped cap when the board side is at
least 19. -/
def specCandidateCap (N : Nat) (s : AISettings) : Nat :=
  (max 6 (min ((s.maxCandidatesBase : Int) - 3 * max 0 ((s.depth : Int) - 2))
    (s.maxCandidatesBase : Int))).toNat + (if 19 ≤ N then 2 else 0)

/-- A position lies on the `N × N` board. -/
def inBounds (N : Nat) (p : Pos) : Prop :=
  p.1 < N ∧ p.2 < N

instance (N : Nat) (p : Pos) : Decidable (inBounds N p) := by
  unfold inBounds; infer_instance

/-- One flood-fill step: `q` is an in-bounds orthogonal neighbor of `p`
carrying the given color. -/
def SameColorStep (N : Nat) (board : Board) (color : Cell) (p q : Pos) :
    Prop :=
  q ∈ getNeighbors N p.1 p.2 ∧ cellAt board q.1 q.2 = color

/-- `q` belongs to the maximal same-colored connected group through `p`:
reflexive-transitive closure of single flood-fill steps. -/
abbrev ReachC (N : Nat) (board : Board) (color : Cell) : Pos → Pos → Prop :=
  Relation.ReflTransGen (SameColorStep N board color)

/-- The maximal group through `p` has no liberty: no cell connected to `p`
has an empty neighbor. -/
def GroupDead (N : Nat) (board : Board) (color : Cell) (p : Pos) : Prop :=
  ∀ x, ReachC N board color p x →
    ∀ q ∈ getNeighbors N x.1 x.2, cellAt board q.1 q.2 ≠ Cell.empty

/-- Position `p` lies in the group of some processed opponent stone (`A` is
the list of already-scanned positions). -/
def MetBy (N : Nat) (b0 : Board) (color : Cell) (A : List Pos) (p : Pos) :
    Prop :=
  ∃ a ∈ A, inBounds N a ∧ cellAt b0 a.1 a.2 = color ∧ ReachC N b0 color a p

/-- Loop invariant of the `removeCapturedGroups` scan, relative to the input
board `b0` and the prefix `A` of scanned positions: the current board is `b0`
with the already-met dead groups cleared, the visited set is exactly the met
cells, and the counter counts the met dead stones. -/
def ScanInv (N : Nat) (b0 : Board) (color : Cell) (A : List Pos)
    (st : Board × List Pos × Nat) : Prop :=
  BoardWF N st.1 ∧
  (∀ p : Pos, inBounds N p → MetBy N b0 color A p →
    GroupDead N b0 color p → cellAt st.1 p.1 p.2 = Cell.empty) ∧
  (∀ p : Pos, inBounds N p →
    ¬ (MetBy N b0 color A p ∧ GroupDead N b0 color p) →
    cellAt st.1 p.1 p.2 = cellAt b0 p.1 p.2) ∧
  (∀ p : Pos, p ∈ st.2.1 ↔ MetBy N b0 color A p) ∧
  st.2.2 = (st.2.1.filter (fun p =>
    decide (cellAt b0 p.1 p.2 = color) &&
    decide (countLiberties N b0 (getGroup N b0 p.1 p.2) = 0))).length ∧
  st.2.1.Nodup

-- A quick sanity check of the embedding on the 3×3 suicide examples of the
-- specification: with the Black ring around the empty center keeping outside
-- liberties, White at the center is suicide and illegal; with the ring's
-- outside liberties filled, the same move captures the ring and is legal.
example :
    isLegalMove 3
      [[Cell.empty, Cell.black, Cell.empty],
       [Cell.black, Cell.empty, Cell.black],
       [Cell.empty, Cell.black, Cell.empty]] 1 1 Player.white = false := by
  decide

example :
    isLegalMove 3
      [[Cell.white, Cell.black, Cell.white],
       [Cell.black, Cell.empty, Cell.black],
       [Cell.white, Cell.black, Cell.white]] 1 1 Player.white = true := by
  decide

/-- C1: for every board, in-bounds position and player, `isLegalMove` holds
iff the target cell is empty and, after placing the stone and then removing
all captured opponent groups on the test copy, the mover's own group has at
least one liberty or at least one opponent stone was captured — captures
are resolved strictly before the suicide check. -/
theorem isLegalMove_iff_capture_before_suicide
    (N : Nat) (board : Board) (row col : Nat) (player : Player)
    (_hrow : row < N) (_hcol : col < N) :
    isLegalMove N board row col player = true ↔
      (cellAt board row col = Cell.empty ∧
        (0 < countLiberties N
            (removeCapturedGroups N (setCell board row col player.cell)
              (opponent player).cell).1
            (getGroup N
              (removeCapturedGroups N (setCell board row col player.cell)
                (opponent player).cell).1 row col) ∨
          0 < (removeCapturedGroups N (setCell board row col player.cell)
                (opponent player).cell).2)) := by
  unfold isLegalMove
  dsimp only
  split_ifs with h1 h2
  · simp [h1]
  · constructor
    · intro hf; exact absurd hf (by simp)
    · intro hc
      rcases hc with ⟨_, hpos⟩
      omega
  · rw [not_not] at h1
    simp only [h1, true_and, true_iff]
    omega

/-- C1 witness: the capture-before-suicide instance at the concrete 3×3
capture position (White ring-capture at the center is legal because the
capture is resolved before the suicide check). -/
theorem isLegalMove_iff_capture_before_suicide_witness :
    (1 < 3 ∧ 1 < 3) ∧
      (isLegalMove 3
          [[Cell.white, Cell.black, Cell.white],
           [Cell.black, Cell.empty, Cell.black],
           [Cell.white, Cell.black, Cell.white]] 1 1 Player.white = true ↔
        (cellAt
            [[Cell.white, Cell.black, Cell.white],
             [Cell.black, Cell.empty, Cell.black],
             [Cell.white, Cell.black, Cell.white]] 1 1 = Cell.empty ∧
          (0 < countLiberties 3
              (removeCapturedGroups 3
                (setCell
                  [[Cell.white, Cell.black, Cell.white],
                   [Cell.black, Cell.empty, Cell.black],
                   [Cell.white, Cell.black, Cell.white]] 1 1
                  Player.white.cell)
                (opponent Player.white).cell).1
              (getGroup 3
                (removeCapturedGroups 3
                  (setCell
                    [[Cell.white, Cell.black, Cell.white],
                     [Cell.black, Cell.empty, Cell.black],
                     [Cell.white, Cell.black, Cell.white]] 1 1
                    Player.white.cell)
                  (opponent Player.white).cell).1 1 1) ∨
            0 < (removeCapturedGroups 3
                  (setCell
                    [[Cell.white, Cell.black, Cell.white],
                     [Cell.black, Cell.empty, Cell.black],
                     [Cell.white, Cell.black, Cell.white]] 1 1
                    Player.white.cell)
                  (opponent Player.white).cell).2))) :=
  ⟨by decide,
    isLegalMove_iff_capture_before_suicide 3
      [[Cell.white, Cell.black, Cell.white],
       [Cell.black, Cell.empty, Cell.black],
       [Cell.white, Cell.black, Cell.white]] 1 1 Player.white
      (by decide) (by decide)⟩

/-- C3: when `isLegalMove` rejects a move, `makeMove` returns `false` and
leaves the whole game state unchanged (board, current player, captured
counts, pass counter and game-over flag). -/
theorem makeMove_illegal_state_unchanged
    (N : Nat) (s : GameState) (row col : Nat) (player : Player)
    (h : isLegalMove N s.board row col player = false) :
    makeMove N s row col player = (false, s) := by
  unfold makeMove
  rw [if_pos (by simp [h])]

/-- C3 witness: a move on an occupied cell is rejected and the state is
returned untouched. -/
theorem makeMove_illegal_state_unchanged_witness :
    (isLegalMove 1 [[Cell.black]] 0 0 Player.white = false) ∧
      makeMove 1 ⟨[[Cell.black]], Player.white, 0, 0, 0, false⟩ 0 0
        Player.white =
        (false, ⟨[[Cell.black]], Player.white, 0, 0, 0, false⟩) :=
  ⟨by decide,
    makeMove_illegal_state_unchanged 1
      ⟨[[Cell.black]], Player.white, 0, 0, 0, false⟩ 0 0 Player.white
      (by decide)⟩

/-- C7: every successful `makeMove` resets `consecutivePasses` to 0; every
`passMove` increments `consecutivePasses` by exactly one and flips the
current player; and a pass that brings the counter to 2 marks the game
over. -/
theorem pass_and_placement_counters
    (N : Nat) (s : GameState) (row col : Nat) (player : Player) :
    ((makeMove N s row col player).1 = true →
        (makeMove N s row col player).2.consecutivePasses = 0) ∧
      (passMove s).consecutivePasses = s.consecutivePasses + 1 ∧
      (passMove s).currentPlayer = opponent s.currentPlayer ∧
      (s.consecutivePasses + 1 ≥ 2 → (passMove s).gameOver = true) := by
  refine ⟨?_, ?_, ?_, ?_⟩
  · intro hmk
    unfold makeMove at hmk ⊢
    by_cases h : isLegalMove N s.board row col player = true
    · rw [if_neg (by simp [h])]
    · rw [if_pos (by simpa using h)] at hmk
      exact absurd hmk (by simp)
  · unfold passMove
    by_cases h : s.consecutivePasses + 1 ≥ 2 <;>
      simp [h, endGame]
  · unfold passMove
    by_cases h : s.consecutivePasses + 1 ≥ 2 <;>
      simp [h, endGame]
  · intro h
    unfold passMove
    simp only [ge_iff_le, h, if_pos]
    simp [endGame]

/-- C7 witness: on the 1×1 game, a first legal placement resets the pass
counter, and a pass from one prior pass flips the player and ends the
game. -/
theorem pass_and_placement_counters_witness :
    ((makeMove 1 ⟨[[Cell.empty]], Player.black, 0, 0, 1, false⟩ 0 0
          Player.black).1 = true →
        (makeMove 1 ⟨[[Cell.empty]], Player.black, 0, 0, 1, false⟩ 0 0
          Player.black).2.consecutivePasses = 0) ∧
      (passMove ⟨[[Cell.empty]], Player.black, 0, 0, 1, false⟩).consecutivePasses =
        1 + 1 ∧
      (passMove ⟨[[Cell.empty]], Player.black, 0, 0, 1, false⟩).currentPlayer =
        opponent Player.black ∧
      (1 + 1 ≥ 2 →
        (passMove ⟨[[Cell.empty]], Player.black, 0, 0, 1, false⟩).gameOver =
          true) :=
  pass_and_placement_counters 1 ⟨[[Cell.empty]], Player.black, 0, 0, 1, false⟩
    0 0 Player.black

/-- C8: `endGame` scores each color as stones on board plus captures; the
strictly greater score wins, and equal scores yield the tie/draw result. -/
theorem endGame_scoring_spec (s : GameState) :
    (endGame s).2.blackScore =
        countCells s.board Cell.black + s.capturedBlack ∧
      (endGame s).2.whiteScore =
        countCells s.board Cell.white + s.capturedWhite ∧
      ((endGame s).2.blackScore > (endGame s).2.whiteScore →
        (endGame s).2.winner = "Black" ∧
          (endGame s).2.historyWinner = "black") ∧
      ((endGame s).2.whiteScore > (endGame s).2.blackScore →
        (endGame s).2.winner = "White" ∧
          (endGame s).2.historyWinner = "white") ∧
      ((endGame s).2.blackScore = (endGame s).2.whiteScore →
        (endGame s).2.winner = "Tie" ∧
          (endGame s).2.historyWinner = "draw") := by
  unfold endGame
  by_cases h1 : countCells s.board Cell.black + s.capturedBlack >
      countCells s.board Cell.white + s.capturedWhite
  · simp [h1]; omega
  · by_cases h2 : countCells s.board Cell.white + s.capturedWhite >
        countCells s.board Cell.black + s.capturedBlack
    · simp [h1, h2]; omega
    · simp [h1, h2]

/-- C8 witness: a finished 1×1 game with one black stone and one white
capture is a 1–1 tie and reported as a draw. -/
theorem endGame_scoring_spec_witness :
    ((endGame ⟨[[Cell.black]], Player.black, 0, 1, 2, false⟩).2.blackScore =
        countCells [[Cell.black]] Cell.black + 0 ∧
      (endGame ⟨[[Cell.black]], Player.black, 0, 1, 2, false⟩).2.whiteScore =
        countCells [[Cell.black]] Cell.white + 1 ∧
      ((endGame ⟨[[Cell.black]], Player.black, 0, 1, 2, false⟩).2.blackScore >
          (endGame ⟨[[Cell.black]], Player.black, 0, 1, 2, false⟩).2.whiteScore →
        (endGame ⟨[[Cell.black]], Player.black, 0, 1, 2, false⟩).2.winner =
            "Black" ∧
          (endGame
              ⟨[[Cell.black]], Player.black, 0, 1, 2, false⟩).2.historyWinner =
            "black") ∧
      ((endGame ⟨[[Cell.black]], Player.black, 0, 1, 2, false⟩).2.whiteScore >
          (endGame ⟨[[Cell.black]], Player.black, 0, 1, 2, false⟩).2.blackScore →
        (endGame ⟨[[Cell.black]], Player.black, 0, 1, 2, false⟩).2.winner =
            "White" ∧
          (endGame
              ⟨[[Cell.black]], Player.black, 0, 1, 2, false⟩).2.historyWinner =
            "white") ∧
      ((endGame ⟨[[Cell.black]], Player.black, 0, 1, 2, false⟩).2.blackScore =
          (endGame ⟨[[Cell.black]], Player.black, 0, 1, 2, false⟩).2.whiteScore →
        (endGame ⟨[[Cell.black]], Player.black, 0, 1, 2, false⟩).2.winner =
            "Tie" ∧
          (endGame
              ⟨[[Cell.black]], Player.black, 0, 1, 2, false⟩).2.historyWinner =
            "draw")) :=
  endGame_scoring_spec ⟨[[Cell.black]], Player.black, 0, 1, 2, false⟩

/-- A left fold whose body adds a per-element quantity is the initial value
plus the sum of those quantities. -/
theorem foldl_shift {α : Type} (body : ℚ → α → ℚ) (f : α → ℚ)
    (h : ∀ s x, body s x = s + f x) :
    ∀ (l : List α) (init : ℚ), l.foldl body init = init + (l.map f).sum := by
  intro l
  induction l with
  | nil => intro init; simp
  | cons x xs ih =>
    intro init
    rw [List.foldl_cons, h, ih, List.map_cons, List.sum_cons]
    ring

/-- `evaluatePosition` decomposed into its material, group-safety and
positional sums (all in the source's own terms). -/
theorem evaluatePosition_eq_parts (N : Nat) (board : Board)
    (player : Player) :
    evaluatePosition N board player =
      materialScore board player +
        (((findAllGroups N board player.cell).map (ownGroupTerm N board)).sum +
          ((findAllGroups N board (opponent player).cell).map
            (oppGroupTerm N board)).sum) +
        ((rowMajor N).map (signedInfluence N board player)).sum := by
  unfold evaluatePosition
  dsimp only
  rw [foldl_shift _ (signedInfluence N board player) (by
    intro s p
    unfold signedInfluence influenceTerm
    split_ifs <;> ring) (rowMajor N)]
  rw [foldl_shift _ (oppGroupTerm N board) (by
    intro s g
    unfold oppGroupTerm
    split_ifs <;> ring) (findAllGroups N board (opponent player).cell)]
  rw [foldl_shift _ (ownGroupTerm N board) (by
    intro s g
    unfold ownGroupTerm
    split_ifs <;> ring) (findAllGroups N board player.cell)]
  unfold materialScore
  ring

/-- Positions produced by the row-major scan are in bounds. -/
theorem rowMajor_mem_lt {N : Nat} {p : Pos} (hp : p ∈ rowMajor N) :
    p.1 < N ∧ p.2 < N := by
  unfold rowMajor at hp
  simp only [List.mem_flatMap, List.mem_map, List.mem_range] at hp
  obtain ⟨r, hr, c, hc, rfl⟩ := hp
  exact ⟨hr, hc⟩

/-- For in-bounds coordinates, zero edge distance is exactly membership in
the first or last row or column. -/
theorem edgeDist_eq_zero_iff {N r c : Nat} (hr : r < N) (hc : c < N) :
    edgeDist N r c = 0 ↔ (r = 0 ∨ r = N - 1 ∨ c = 0 ∨ c = N - 1) := by
  unfold edgeDist
  omega

/-- C9: the positional-influence component of `evaluatePosition`
contributes, per own stone, `max(0, N/3 - manhattanDistanceToCenter/2)`,
a flat +3 on the board edge and a flat +5 in a corner, and the same
quantities negated per opponent stone, on top of the material and
group-safety components. -/
theorem evaluatePosition_influence_spec (N : Nat) (board : Board)
    (player : Player) :
    evaluatePosition N board player =
      materialScore board player + groupSafetyScore N board player +
        influenceSpec N board player := by
  rw [evaluatePosition_eq_parts]
  unfold groupSafetyScore influenceSpec
  congr 1
  refine congrArg List.sum (List.map_congr_left ?_)
  intro p hp
  obtain ⟨h1, h2⟩ := rowMajor_mem_lt hp
  unfold signedInfluence influenceTerm centerBonus
  simp only [edgeDist_eq_zero_iff h1 h2]

/-- Summing a pointwise-negated map negates the sum. -/
theorem sum_map_negQ {α : Type} (f : α → ℚ) (l : List α) :
    (l.map (fun x => -(f x))).sum = -((l.map f).sum) := by
  induction l with
  | nil => simp
  | cons x xs ih => simp [ih]; ring

/-- C10: `evaluatePosition` is exactly antisymmetric in the player:
every component is mirrored with flipped sign, so the evaluation is
zero-sum between the two colors. -/
theorem evaluatePosition_antisymmetric (N : Nat) (board : Board) :
    evaluatePosition N board Player.black =
      -evaluatePosition N board Player.white := by
  rw [evaluatePosition_eq_parts, evaluatePosition_eq_parts]
  have hback : opponent Player.black = Player.white := rfl
  have hfwd : opponent Player.white = Player.black := rfl
  rw [hback, hfwd]
  have hmat : materialScore board Player.black =
      -materialScore board Player.white := by
    unfold materialScore
    rw [hback, hfwd]
    ring
  have hterm : ∀ g, oppGroupTerm N board g = -(ownGroupTerm N board g) := by
    intro g
    unfold ownGroupTerm oppGroupTerm
    split_ifs <;> ring
  have hsign : ∀ p, signedInfluence N board Player.black p =
      -(signedInfluence N board Player.white p) := by
    intro p
    unfold signedInfluence
    rw [hback, hfwd]
    cases hcell : cellAt board p.1 p.2 <;>
      simp [Player.cell, hcell]
  rw [hmat]
  rw [List.map_congr_left (fun g _ => hterm g),
    List.map_congr_left (fun g _ => hterm g),
    List.map_congr_left (fun p _ => hsign p)]
  rw [sum_map_negQ, sum_map_negQ, sum_map_negQ]
  ring

/-- Stable insertion keeps the same elements, one `x` added. -/
theorem insertScored_perm (x : Pos × ℚ) (l : List (Pos × ℚ)) :
    (insertScored x l).Perm (x :: l) := by
  induction l with
  | nil => exact List.Perm.refl _
  | cons y ys ih =>
    unfold insertScored
    by_cases h : y.2 < x.2
    · rw [if_pos h]
    · rw [if_neg h]
      exact (List.Perm.cons y ih).trans (List.Perm.swap x y ys)

/-- The stable sort permutes its input (generalized over the fold
accumulator). -/
theorem foldl_insertScored_perm (l : List (Pos × ℚ)) :
    ∀ acc : List (Pos × ℚ),
      (l.foldl (fun acc x => insertScored x acc) acc).Perm (l ++ acc) := by
  induction l with
  | nil => intro acc; exact List.Perm.refl _
  | cons x xs ih =>
    intro acc
    rw [List.foldl_cons]
    exact ((ih (insertScored x acc)).trans
      (List.Perm.append_left xs (insertScored_perm x acc))).trans
      List.perm_middle

/-- `sortScoredDesc` permutes its input. -/
theorem sortScoredDesc_perm (l : List (Pos × ℚ)) :
    (sortScoredDesc l).Perm l := by
  unfold sortScoredDesc
  have h := foldl_insertScored_perm l []
  rwa [List.append_nil] at h

/-- Stable insertion preserves descending sortedness. -/
theorem insertScored_sorted (x : Pos × ℚ) (l : List (Pos × ℚ))
    (h : l.Pairwise (fun a b => b.2 ≤ a.2)) :
    (insertScored x l).Pairwise (fun a b => b.2 ≤ a.2) := by
  induction l with
  | nil => simp [insertScored]
  | cons y ys ih =>
    unfold insertScored
    rcases List.pairwise_cons.mp h with ⟨hy, hys⟩
    by_cases hxy : y.2 < x.2
    · rw [if_pos hxy]
      refine List.pairwise_cons.mpr ⟨?_, h⟩
      intro z hz
      rcases List.mem_cons.mp hz with rfl | hz2
      · exact le_of_lt hxy
      · exact le_trans (hy z hz2) (le_of_lt hxy)
    · rw [if_neg hxy]
      refine List.pairwise_cons.mpr ⟨?_, ih hys⟩
      intro z hz
      rcases List.mem_cons.mp ((insertScored_perm x ys).mem_iff.mp hz) with
        rfl | hz2
      · exact le_of_not_lt hxy
      · exact hy z hz2

/-- `sortScoredDesc` sorts descending by score (generalized over a sorted
accumulator). -/
theorem foldl_insertScored_sorted (l : List (Pos × ℚ)) :
    ∀ acc : List (Pos × ℚ), acc.Pairwise (fun a b => b.2 ≤ a.2) →
      (l.foldl (fun acc x => insertScored x acc) acc).Pairwise
        (fun a b => b.2 ≤ a.2) := by
  induction l with
  | nil => intro acc hacc; exact hacc
  | cons x xs ih =>
    intro acc hacc
    rw [List.foldl_cons]
    exact ih _ (insertScored_sorted x acc hacc)

/-- `sortScoredDesc` output is descending in the score component. -/
theorem sortScoredDesc_sorted (l : List (Pos × ℚ)) :
    (sortScoredDesc l).Pairwise (fun a b => b.2 ≤ a.2) := by
  unfold sortScoredDesc
  exact foldl_insertScored_sorted l [] (by simp)

/-- The cap computed by `getCandidateMoves` matches its closed form
whenever the settings carry nonzero values (the `|| 16` and `|| 2`
fallbacks are inactive). -/
theorem candidateCap_closed_form (N : Nat) (s : AISettings)
    (hbase : s.maxCandidatesBase ≠ 0) (hdepth : s.depth ≠ 0) :
    candidateCap N s = codeCandidateCap N s := by
  unfold candidateCap codeCandidateCap
  rw [if_neg hbase, if_neg hdepth]
  dsimp only
  congr 1
  split_ifs <;> omega

/-- C6 amended: `getCandidateMoves` returns the untrimmed legal list when
at most one legal move exists; otherwise it returns the legal moves sorted
in descending heuristic order, trimmed to the code's cap
(`codeCandidateCap`: +2 applied to the quantity being clamped into
`[6, base]` when the side is at least 19, not to the clamped cap as the
claim says) for root calls and to `max(8, floor(cap*0.75))` for interior
calls. -/
theorem getCandidateMoves_trim_spec (N : Nat) (board : Board)
    (player : Player) (forRoot : Bool) (s : AISettings)
    (hbase : s.maxCandidatesBase ≠ 0) (hdepth : s.depth ≠ 0) :
    (((getLegalMoves N board player).length ≤ 1) →
        getCandidateMoves N board player forRoot s =
          getLegalMoves N board player) ∧
      (1 < (getLegalMoves N board player).length →
        (getCandidateMoves N board player forRoot s =
            ((sortScoredDesc ((getLegalMoves N board player).map (fun p =>
                (p, scoreMoveHeuristic N board p.1 p.2 player)))).take
              (if forRoot then codeCandidateCap N s
                else max 8 (3 * codeCandidateCap N s / 4))).map
              (fun x => x.1) ∧
          (getCandidateMoves N board player forRoot s).length =
            min (if forRoot then codeCandidateCap N s
                else max 8 (3 * codeCandidateCap N s / 4))
              (getLegalMoves N board player).length ∧
          (getCandidateMoves N board player forRoot s).Pairwise
            (fun a b => scoreMoveHeuristic N board b.1 b.2 player ≤
              scoreMoveHeuristic N board a.1 a.2 player) ∧
          ∀ m ∈ getCandidateMoves N board player forRoot s,
            m ∈ getLegalMoves N board player)) := by
  constructor
  · intro h
    unfold getCandidateMoves
    dsimp only
    rw [if_pos h]
  · intro h
    have hlegal : ¬ (getLegalMoves N board player).length ≤ 1 := not_le.mpr h
    unfold getCandidateMoves
    dsimp only
    rw [if_neg hlegal, candidateCap_closed_form N s hbase hdepth]
    set scored := (getLegalMoves N board player).map (fun p =>
      (p, scoreMoveHeuristic N board p.1 p.2 player)) with hscored
    set k := if forRoot then codeCandidateCap N s
      else max 8 (3 * codeCandidateCap N s / 4) with hk
    have hval : ∀ x ∈ scored, x.2 =
        scoreMoveHeuristic N board x.1.1 x.1.2 player := by
      intro x hx
      obtain ⟨p, hp, rfl⟩ := List.mem_map.mp hx
      rfl
    have hmemscored : ∀ x ∈ (sortScoredDesc scored).take k, x ∈ scored := by
      intro x hx
      exact (sortScoredDesc_perm scored).mem_iff.mp (List.take_subset k _ hx)
    refine ⟨rfl, ?_, ?_, ?_⟩
    · rw [List.length_map, List.length_take,
        (sortScoredDesc_perm scored).length_eq, List.length_map]
    · have hsorted := sortScoredDesc_sorted scored
      have htake : ((sortScoredDesc scored).take k).Pairwise
          (fun a b => b.2 ≤ a.2) :=
        List.Pairwise.sublist (List.take_sublist k _) hsorted
      rw [List.pairwise_map]
      refine List.Pairwise.imp_of_mem ?_ htake
      intro a b ha hb hr
      have ha2 := hval a (hmemscored a ha)
      have hb2 := hval b (hmemscored b hb)
      rw [← ha2, ← hb2]
      exact hr
    · intro m hm
      obtain ⟨x, hx, rfl⟩ := List.mem_map.mp hm
      obtain ⟨p, hp, rfl⟩ := List.mem_map.mp (hmemscored x hx)
      exact hp

/-- C6 witness: the amended trimming characterization instantiated on the
1×1 board with the default settings (base 16, depth 2). -/
theorem getCandidateMoves_trim_spec_witness :
    ((16 : Nat) ≠ 0 ∧ (2 : Nat) ≠ 0) ∧
      ((((getLegalMoves 1 [[Cell.empty]] Player.black).length ≤ 1) →
          getCandidateMoves 1 [[Cell.empty]] Player.black true
              ⟨Algorithm.alphabeta, 2, 0, 16⟩ =
            getLegalMoves 1 [[Cell.empty]] Player.black) ∧
        (1 < (getLegalMoves 1 [[Cell.empty]] Player.black).length →
          (getCandidateMoves 1 [[Cell.empty]] Player.black true
                ⟨Algorithm.alphabeta, 2, 0, 16⟩ =
              ((sortScoredDesc
                  ((getLegalMoves 1 [[Cell.empty]] Player.black).map (fun p =>
                    (p, scoreMoveHeuristic 1 [[Cell.empty]] p.1 p.2
                      Player.black)))).take
                (if true then codeCandidateCap 1 ⟨Algorithm.alphabeta, 2, 0, 16⟩
                  else max 8
                    (3 * codeCandidateCap 1 ⟨Algorithm.alphabeta, 2, 0, 16⟩ /
                      4))).map
                (fun x => x.1) ∧
            (getCandidateMoves 1 [[Cell.empty]] Player.black true
                ⟨Algorithm.alphabeta, 2, 0, 16⟩).length =
              min
                (if true then codeCandidateCap 1 ⟨Algorithm.alphabeta, 2, 0, 16⟩
                  else max 8
                    (3 * codeCandidateCap 1 ⟨Algorithm.alphabeta, 2, 0, 16⟩ /
                      4))
                (getLegalMoves 1 [[Cell.empty]] Player.black).length ∧
            (getCandidateMoves 1 [[Cell.empty]] Player.black true
                ⟨Algorithm.alphabeta, 2, 0, 16⟩).Pairwise
              (fun a b => scoreMoveHeuristic 1 [[Cell.empty]] b.1 b.2
                  Player.black ≤
                scoreMoveHeuristic 1 [[Cell.empty]] a.1 a.2 Player.black) ∧
            ∀ m ∈ getCandidateMoves 1 [[Cell.empty]] Player.black true
                ⟨Algorithm.alphabeta, 2, 0, 16⟩,
              m ∈ getLegalMoves 1 [[Cell.empty]] Player.black))) :=
  ⟨⟨by decide, by decide⟩,
    getCandidateMoves_trim_spec 1 [[Cell.empty]] Player.black true
      ⟨Algorithm.alphabeta, 2, 0, 16⟩ (by decide) (by decide)⟩

/-- Finite scores sit strictly above `-Infinity`. -/
theorem toE_bot_lt (q : ℚ) : (⊥ : E) < toE q :=
  WithBot.bot_lt_coe _

/-- Finite scores sit strictly below `Infinity`. -/
theorem toE_lt_top (q : ℚ) : toE q < (⊤ : E) := by
  unfold toE
  exact (WithBot.coe_lt_coe).mpr (WithTop.coe_lt_top q)

/-- With an expired deadline the root loop never expands a child. -/
theorem rootGo_timeUp (f : Pos → E) (moves : List Pos) (best : E)
    (bm : Option Pos) : rootGo f true moves best bm = (best, bm) := by
  cases moves <;> simp [rootGo]

/-- A best move already found is never dropped by the root loop. -/
theorem rootGo_some_stays (f : Pos → E) (timeUp : Bool) :
    ∀ (moves : List Pos) (best : E) (m0 : Pos),
      ((rootGo f timeUp moves best (some m0)).2).isSome := by
  intro moves
  induction moves with
  | nil => intro best m0; simp [rootGo]
  | cons m rest ih =>
    intro best m0
    unfold rootGo
    by_cases ht : timeUp = true
    · simp [ht]
    · simp only [Bool.not_eq_true] at ht
      subst ht
      rw [if_neg Bool.false_ne_true]
      by_cases hlt : best < f m
      · rw [if_pos hlt]; exact ih _ _
      · rw [if_neg hlt]; exact ih _ _

/-- With time left and a nonempty candidate list of finite scores, the root
loop selects some move. -/
theorem rootGo_selects (f : Pos → E) (moves : List Pos)
    (hne : moves ≠ []) (hfin : ∀ m ∈ moves, (⊥ : E) < f m) :
    ((rootGo f false moves ⊥ none).2).isSome := by
  cases moves with
  | nil => exact absurd rfl hne
  | cons m rest =>
    unfold rootGo
    rw [if_neg Bool.false_ne_true,
      if_pos (hfin m (List.mem_cons_self m rest))]
    exact rootGo_some_stays f false rest (f m) m

/-- Any move selected by the root loop comes from the accumulator or the
candidate list. -/
theorem rootGo_mem (f : Pos → E) (timeUp : Bool) :
    ∀ (moves : List Pos) (best : E) (bm : Option Pos) (m : Pos),
      (rootGo f timeUp moves best bm).2 = some m →
      bm = some m ∨ m ∈ moves := by
  intro moves
  induction moves with
  | nil => intro best bm m h; simp [rootGo] at h; exact Or.inl h
  | cons x rest ih =>
    intro best bm m h
    unfold rootGo at h
    by_cases ht : timeUp = true
    · rw [ht] at h
      simp at h
      exact Or.inl h
    · simp only [Bool.not_eq_true] at ht
      subst ht
      rw [if_neg Bool.false_ne_true] at h
      by_cases hlt : best < f x
      · rw [if_pos hlt] at h
        rcases ih _ _ _ h with h2 | h2
        · have hx : x = m := Option.some.inj h2
          exact Or.inr (hx ▸ List.mem_cons_self x rest)
        · exact Or.inr (List.mem_cons_of_mem x h2)
      · rw [if_neg hlt] at h
        rcases ih _ _ _ h with h2 | h2
        · exact Or.inl h2
        · exact Or.inr (List.mem_cons_of_mem x h2)

/-- The minimax maximizing loop keeps finite scores below `Infinity`. -/
theorem mmMaxGo_lt_top (f : Pos → E) :
    ∀ (moves : List Pos) (best : E) (bm : Option Pos), best < ⊤ →
      (∀ m ∈ moves, f m < ⊤) → (mmMaxGo f moves best bm).1 < ⊤ := by
  intro moves
  induction moves with
  | nil => intro best bm hb _; exact hb
  | cons m rest ih =>
    intro best bm hb hf
    unfold mmMaxGo
    by_cases hlt : best < f m
    · rw [if_pos hlt]
      exact ih _ _ (hf m (List.mem_cons_self m rest))
        (fun x hx => hf x (List.mem_cons_of_mem m hx))
    · rw [if_neg hlt]
      exact ih _ _ hb (fun x hx => hf x (List.mem_cons_of_mem m hx))

/-- The minimax maximizing loop rises strictly above `-Infinity` as soon as
it sees one finite child. -/
theorem mmMaxGo_bot_lt (f : Pos → E) :
    ∀ (moves : List Pos) (best : E) (bm : Option Pos),
      ((⊥ : E) < best ∨ moves ≠ []) → (∀ m ∈ moves, (⊥ : E) < f m) →
      (⊥ : E) < (mmMaxGo f moves best bm).1 := by
  intro moves
  induction moves with
  | nil =>
    intro best bm hb _
    rcases hb with hb | hb
    · exact hb
    · exact absurd rfl hb
  | cons m rest ih =>
    intro best bm hb hf
    unfold mmMaxGo
    by_cases hlt : best < f m
    · rw [if_pos hlt]
      exact ih _ _ (Or.inl (hf m (List.mem_cons_self m rest)))
        (fun x hx => hf x (List.mem_cons_of_mem m hx))
    · rw [if_neg hlt]
      have hbest : (⊥ : E) < best :=
        lt_of_lt_of_le (hf m (List.mem_cons_self m rest)) (not_lt.mp hlt)
      exact ih _ _ (Or.inl hbest)
        (fun x hx => hf x (List.mem_cons_of_mem m hx))

/-- The minimax minimizing loop stays above `-Infinity`. -/
theorem mmMinGo_bot_lt (f : Pos → E) :
    ∀ (moves : List Pos) (best : E) (bm : Option Pos), (⊥ : E) < best →
      (∀ m ∈ moves, (⊥ : E) < f m) → (⊥ : E) < (mmMinGo f moves best bm).1 := by
  intro moves
  induction moves with
  | nil => intro best bm hb _; exact hb
  | cons m rest ih =>
    intro best bm hb hf
    unfold mmMinGo
    by_cases hlt : f m < best
    · rw [if_pos hlt]
      exact ih _ _ (hf m (List.mem_cons_self m rest))
        (fun x hx => hf x (List.mem_cons_of_mem m hx))
    · rw [if_neg hlt]
      exact ih _ _ hb (fun x hx => hf x (List.mem_cons_of_mem m hx))

/-- The minimax minimizing loop drops strictly below `Infinity` as soon as
it sees one finite child. -/
theorem mmMinGo_lt_top (f : Pos → E) :
    ∀ (moves : List Pos) (best : E) (bm : Option Pos),
      (best < ⊤ ∨ moves ≠ []) → (∀ m ∈ moves, f m < ⊤) →
      (mmMinGo f moves best bm).1 < ⊤ := by
  intro moves
  induction moves with
  | nil =>
    intro best bm hb _
    rcases hb with hb | hb
    · exact hb
    · exact absurd rfl hb
  | cons m rest ih =>
    intro best bm hb hf
    unfold mmMinGo
    by_cases hlt : f m < best
    · rw [if_pos hlt]
      exact ih _ _ (Or.inl (hf m (List.mem_cons_self m rest)))
        (fun x hx => hf x (List.mem_cons_of_mem m hx))
    · rw [if_neg hlt]
      have hbest : best < ⊤ :=
        lt_of_le_of_lt (not_lt.mp hlt) (hf m (List.mem_cons_self m rest))
      exact ih _ _ (Or.inl hbest)
        (fun x hx => hf x (List.mem_cons_of_mem m hx))

/-- `minimax` always computes a finite score. -/
theorem minimax_fin (N : Nat) :
    ∀ (depth : Nat) (board : Board) (player : Player) (isMax : Bool)
      (orig : Player),
      (⊥ : E) < (minimax N depth board player isMax orig).1 ∧
        (minimax N depth board player isMax orig).1 < ⊤ := by
  intro depth
  induction depth with
  | zero =>
    intro board player isMax orig
    exact ⟨toE_bot_lt _, toE_lt_top _⟩
  | succ d ih =>
    intro board player isMax orig
    unfold minimax
    by_cases hmv : (getLegalMoves N board player).isEmpty
    · rw [if_pos hmv]
      exact ⟨toE_bot_lt _, toE_lt_top _⟩
    · rw [if_neg hmv]
      have hne : getLegalMoves N board player ≠ [] := by
        intro hcontra
        rw [hcontra] at hmv
        exact hmv rfl
      cases isMax
      · dsimp only [Bool.false_eq_true, if_false]
        constructor
        · exact mmMinGo_bot_lt _ _ _ _ (by decide)
            (fun m _ => (ih _ _ _ _).1)
        · exact mmMinGo_lt_top _ _ _ _ (Or.inr hne)
            (fun m _ => (ih _ _ _ _).2)
      · dsimp only [if_true]
        constructor
        · exact mmMaxGo_bot_lt _ _ _ _ (Or.inr hne)
            (fun m _ => (ih _ _ _ _).1)
        · exact mmMaxGo_lt_top _ _ _ _ (by decide)
            (fun m _ => (ih _ _ _ _).2)

/-- The alpha-beta maximizing loop keeps finite scores below `Infinity`. -/
theorem abMaxGo_lt_top (f : Pos → E → E → E) (timeUp : Bool) (beta : E) :
    ∀ (moves : List Pos) (alpha best : E) (bm : Option Pos), best < ⊤ →
      (∀ m a b, f m a b < ⊤) →
      (abMaxGo f timeUp beta moves alpha best bm).1 < ⊤ := by
  intro moves
  induction moves with
  | nil => intro alpha best bm hb _; exact hb
  | cons m rest ih =>
    intro alpha best bm hb hf
    unfold abMaxGo
    by_cases ht : timeUp = true
    · rw [if_pos ht]; exact hb
    · simp only [Bool.not_eq_true] at ht
      subst ht
      rw [if_neg Bool.false_ne_true]
      have hbest2 : (if best < f m alpha beta then f m alpha beta else best) <
          ⊤ := by
        by_cases hlt : best < f m alpha beta
        · rw [if_pos hlt]; exact hf m alpha beta
        · rw [if_neg hlt]; exact hb
      by_cases hcut : beta ≤ max alpha (f m alpha beta)
      · rw [if_pos hcut]; exact hbest2
      · rw [if_neg hcut]
        exact ih _ _ _ hbest2 hf

/-- The alpha-beta maximizing loop rises above `-Infinity` once it scores a
finite child (or started there). -/
theorem abMaxGo_bot_lt (f : Pos → E → E → E) (timeUp : Bool) (beta : E) :
    ∀ (moves : List Pos) (alpha best : E) (bm : Option Pos),
      ((⊥ : E) < best ∨ (timeUp = false ∧ moves ≠ [])) →
      (∀ m a b, (⊥ : E) < f m a b) →
      (⊥ : E) < (abMaxGo f timeUp beta moves alpha best bm).1 := by
  intro moves
  induction moves with
  | nil =>
    intro alpha best bm hb _
    rcases hb with hb | ⟨_, hb⟩
    · exact hb
    · exact absurd rfl hb
  | cons m rest ih =>
    intro alpha best bm hb hf
    unfold abMaxGo
    by_cases ht : timeUp = true
    · rw [if_pos ht]
      rcases hb with hb | ⟨hb, _⟩
      · exact hb
      · rw [ht] at hb; exact absurd hb (by simp)
    · simp only [Bool.not_eq_true] at ht
      subst ht
      rw [if_neg Bool.false_ne_true]
      have hbest2 : (⊥ : E) <
          (if best < f m alpha beta then f m alpha beta else best) := by
        by_cases hlt : best < f m alpha beta
        · rw [if_pos hlt]; exact hf m alpha beta
        · rw [if_neg hlt]
          exact lt_of_lt_of_le (hf m alpha beta) (not_lt.mp hlt)
      by_cases hcut : beta ≤ max alpha (f m alpha beta)
      · rw [if_pos hcut]; exact hbest2
      · rw [if_neg hcut]
        exact ih _ _ _ (Or.inl hbest2) hf

/-- The alpha-beta minimizing loop stays above `-Infinity`. -/
theorem abMinGo_bot_lt (f : Pos → E → E → E) (timeUp : Bool) (alpha : E) :
    ∀ (moves : List Pos) (beta best : E) (bm : Option Pos), (⊥ : E) < best →
      (∀ m a b, (⊥ : E) < f m a b) →
      (⊥ : E) < (abMinGo f timeUp alpha moves beta best bm).1 := by
  intro moves
  induction moves with
  | nil => intro beta best bm hb _; exact hb
  | cons m rest ih =>
    intro beta best bm hb hf
    unfold abMinGo
    by_cases ht : timeUp = true
    · rw [if_pos ht]; exact hb
    · simp only [Bool.not_eq_true] at ht
      subst ht
      rw [if_neg Bool.false_ne_true]
      have hbest2 : (⊥ : E) <
          (if f m alpha beta < best then f m alpha beta else best) := by
        by_cases hlt : f m alpha beta < best
        · rw [if_pos hlt]; exact hf m alpha beta
        · rw [if_neg hlt]; exact hb
      by_cases hcut : min beta (f m alpha beta) ≤ alpha
      · rw [if_pos hcut]; exact hbest2
      · rw [if_neg hcut]
        exact ih _ _ _ hbest2 hf

/-- The alpha-beta minimizing loop drops below `Infinity` once it scores a
finite child (or started there). -/
theorem abMinGo_lt_top (f : Pos → E → E → E) (timeUp : Bool) (alpha : E) :
    ∀ (moves : List Pos) (beta best : E) (bm : Option Pos),
      (best < ⊤ ∨ (timeUp = false ∧ moves ≠ [])) →
      (∀ m a b, f m a b < ⊤) →
      (abMinGo f timeUp alpha moves beta best bm).1 < ⊤ := by
  intro moves
  induction moves with
  | nil =>
    intro beta best bm hb _
    rcases hb with hb | ⟨_, hb⟩
    · exact hb
    · exact absurd rfl hb
  | cons m rest ih =>
    intro beta best bm hb hf
    unfold abMinGo
    by_cases ht : timeUp = true
    · rw [if_pos ht]
      rcases hb with hb | ⟨hb, _⟩
      · exact hb
      · rw [ht] at hb; exact absurd hb (by simp)
    · simp only [Bool.not_eq_true] at ht
      subst ht
      rw [if_neg Bool.false_ne_true]
      have hbest2 : (if f m alpha beta < best then f m alpha beta else best) <
          ⊤ := by
        by_cases hlt : f m alpha beta < best
        · rw [if_pos hlt]; exact hf m alpha beta
        · rw [if_neg hlt]
          exact lt_of_le_of_lt (not_lt.mp hlt) (hf m alpha beta)
      by_cases hcut : min beta (f m alpha beta) ≤ alpha
      · rw [if_pos hcut]; exact hbest2
      · rw [if_neg hcut]
        exact ih _ _ _ (Or.inl hbest2) hf

/-- `minimaxAlphaBeta` always computes a finite score. -/
theorem minimaxAlphaBeta_fin (N : Nat) (s : AISettings) (timeUp : Bool) :
    ∀ (depth : Nat) (board : Board) (player : Player) (isMax : Bool)
      (alpha beta : E) (orig : Player),
      (⊥ : E) <
          (minimaxAlphaBeta N s timeUp depth board player isMax alpha beta
            orig).1 ∧
        (minimaxAlphaBeta N s timeUp depth board player isMax alpha beta
          orig).1 < ⊤ := by
  intro depth
  induction depth with
  | zero =>
    intro board player isMax alpha beta orig
    exact ⟨toE_bot_lt _, toE_lt_top _⟩
  | succ d ih =>
    intro board player isMax alpha beta orig
    unfold minimaxAlphaBeta
    by_cases ht : timeUp = true
    · rw [if_pos ht]
      exact ⟨toE_bot_lt _, toE_lt_top _⟩
    · simp only [Bool.not_eq_true] at ht
      rw [ht, if_neg Bool.false_ne_true]
      by_cases hmv : (getCandidateMoves N board player false s).isEmpty
      · rw [if_pos hmv]
        exact ⟨toE_bot_lt _, toE_lt_top _⟩
      · rw [if_neg hmv]
        have hne : getCandidateMoves N board player false s ≠ [] := by
          intro hcontra
          rw [hcontra] at hmv
          exact hmv rfl
        have hsub : timeUp = false := ht
        cases isMax
        · dsimp only [Bool.false_eq_true, if_false]
          constructor
          · refine abMinGo_bot_lt _ _ _ _ _ _ _ (by decide) ?_
            intro m a b
            have := ih (playAndCapture N board player m) (opponent player)
              (!false) a b orig
            rw [hsub] at this
            exact this.1
          · refine abMinGo_lt_top _ _ _ _ _ _ _ (Or.inr ⟨rfl, hne⟩) ?_
            intro m a b
            have := ih (playAndCapture N board player m) (opponent player)
              (!false) a b orig
            rw [hsub] at this
            exact this.2
        · dsimp only [if_true]
          constructor
          · refine abMaxGo_bot_lt _ _ _ _ _ _ _ (Or.inr ⟨rfl, hne⟩) ?_
            intro m a b
            have := ih (playAndCapture N board player m) (opponent player)
              (!true) a b orig
            rw [hsub] at this
            exact this.1
          · refine abMaxGo_lt_top _ _ _ _ _ _ _ (by decide) ?_
            intro m a b
            have := ih (playAndCapture N board player m) (opponent player)
              (!true) a b orig
            rw [hsub] at this
            exact this.2

/-- Candidate moves are always legal moves. -/
theorem getCandidateMoves_subset (N : Nat) (board : Board) (player : Player)
    (forRoot : Bool) (s : AISettings) :
    ∀ m ∈ getCandidateMoves N board player forRoot s,
      m ∈ getLegalMoves N board player := by
  intro m hm
  unfold getCandidateMoves at hm
  dsimp only at hm
  by_cases hlen : (getLegalMoves N board player).length ≤ 1
  · rw [if_pos hlen] at hm
    exact hm
  · rw [if_neg hlen] at hm
    obtain ⟨x, hx, rfl⟩ := List.mem_map.mp hm
    have hxs : x ∈ sortScoredDesc ((getLegalMoves N board player).map
        (fun p => (p, scoreMoveHeuristic N board p.1 p.2 player))) :=
      List.take_subset _ _ hx
    have hxm := (sortScoredDesc_perm _).mem_iff.mp hxs
    obtain ⟨p, hp, rfl⟩ := List.mem_map.mp hxm
    exact hp

/-- The candidate cap is always at least 6. -/
theorem candidateCap_pos (N : Nat) (s : AISettings) :
    6 ≤ candidateCap N s := by
  unfold candidateCap
  dsimp only
  split_ifs <;> omega

/-- When legal moves exist, the candidate list is nonempty. -/
theorem getCandidateMoves_ne_nil (N : Nat) (board : Board) (player : Player)
    (forRoot : Bool) (s : AISettings)
    (hne : getLegalMoves N board player ≠ []) :
    getCandidateMoves N board player forRoot s ≠ [] := by
  unfold getCandidateMoves
  dsimp only
  by_cases hlen : (getLegalMoves N board player).length ≤ 1
  · rw [if_pos hlen]
    exact hne
  · rw [if_neg hlen]
    intro hcontra
    have hlen2 := congrArg List.length hcontra
    rw [List.length_map, List.length_take,
      (sortScoredDesc_perm _).length_eq, List.length_map] at hlen2
    simp only [List.length_nil] at hlen2
    have hcap := candidateCap_pos N s
    have hkeep : 1 ≤ (if forRoot then candidateCap N s
        else max 8 (3 * candidateCap N s / 4)) := by
      split_ifs <;> omega
    omega

/-- A selected best root move always comes from the root candidate list. -/
theorem findBestSearch_mem (N : Nat) (board : Board) (player : Player)
    (s : AISettings) (timeUp : Bool) (m : Pos)
    (h : (findBestSearch N board player s timeUp).2 = some m) :
    m ∈ getCandidateMoves N board player true s := by
  unfold findBestSearch at h
  dsimp only at h
  rcases rootGo_mem _ _ _ _ _ _ h with h2 | h2
  · exact absurd h2 (by simp)
  · exact h2

/-- With time left and root candidates available, the root loop commits to
some move. -/
theorem findBestSearch_isSome (N : Nat) (board : Board) (player : Player)
    (s : AISettings) (hne : getCandidateMoves N board player true s ≠ []) :
    ((findBestSearch N board player s false).2).isSome := by
  unfold findBestSearch
  dsimp only
  refine rootGo_selects _ _ hne ?_
  intro m hm
  by_cases halg : s.algorithm = Algorithm.minimax
  · rw [if_pos halg]
    exact (minimax_fin N _ _ _ _ _).1
  · rw [if_neg halg]
    exact (minimaxAlphaBeta_fin N s false _ _ _ _ _ _ _).1

/-- With the deadline already expired, the root loop scores nothing. -/
theorem findBestSearch_timeUp (N : Nat) (board : Board) (player : Player)
    (s : AISettings) :
    findBestSearch N board player s true = (⊥, none) := by
  unfold findBestSearch
  dsimp only
  exact rootGo_timeUp _ _ _ _

/-- C5: whenever at least one legal move exists, `findBestMove` returns a
legal move — with an already-expired deadline it falls back to the first
candidate — and it returns `none` only when no legal move exists. -/
theorem findBestMove_totality (N : Nat) (board : Board) (player : Player)
    (s : AISettings) (timeUp : Bool) :
    (getLegalMoves N board player ≠ [] →
        ∃ m, findBestMove N board player s timeUp = some m ∧
          m ∈ getLegalMoves N board player) ∧
      (findBestMove N board player s timeUp = none →
        getLegalMoves N board player = []) ∧
      (timeUp = true → getLegalMoves N board player ≠ [] →
        findBestMove N board player s timeUp =
          (getCandidateMoves N board player true s).head?) := by
  have hmain : getLegalMoves N board player ≠ [] →
      ∃ m, findBestMove N board player s timeUp = some m ∧
        m ∈ getLegalMoves N board player := by
    intro hne
    have hcne := getCandidateMoves_ne_nil N board player true s hne
    unfold findBestMove
    dsimp only
    cases hr : (findBestSearch N board player s timeUp).2 with
    | some m =>
      refine ⟨m, rfl, ?_⟩
      exact getCandidateMoves_subset N board player true s m
        (findBestSearch_mem N board player s timeUp m hr)
    | none =>
      cases hcand : getCandidateMoves N board player true s with
      | nil => exact absurd hcand hcne
      | cons c rest =>
        refine ⟨c, ?_, ?_⟩
        · rfl
        · exact getCandidateMoves_subset N board player true s c
            (by rw [hcand]; exact List.mem_cons_self c rest)
  refine ⟨hmain, ?_, ?_⟩
  · intro hnone
    by_cases hne : getLegalMoves N board player = []
    · exact hne
    · obtain ⟨m, hm, _⟩ := hmain hne
      rw [hm] at hnone
      exact absurd hnone (by simp)
  · intro ht _
    subst ht
    unfold findBestMove
    dsimp only
    rw [findBestSearch_timeUp]

/-- C5 witness: on the empty 2×2 board with an already-expired deadline,
`findBestMove` still returns a legal move. -/
theorem findBestMove_totality_witness :
    (getLegalMoves 2 [[Cell.empty, Cell.empty], [Cell.empty, Cell.empty]]
        Player.black ≠ []) ∧
      (∃ m, findBestMove 2
            [[Cell.empty, Cell.empty], [Cell.empty, Cell.empty]] Player.black
            ⟨Algorithm.alphabeta, 2, 0, 16⟩ true = some m ∧
          m ∈ getLegalMoves 2
            [[Cell.empty, Cell.empty], [Cell.empty, Cell.empty]]
            Player.black) :=
  ⟨by decide,
    (findBestMove_totality 2
        [[Cell.empty, Cell.empty], [Cell.empty, Cell.empty]] Player.black
        ⟨Algorithm.alphabeta, 2, 0, 16⟩ true).1 (by decide)⟩

/-- The strict-improvement update of the search loops is `max`. -/
theorem if_lt_eq_max (a b : E) : (if a < b then b else a) = max a b := by
  by_cases h : a < b
  · rw [if_pos h, max_eq_right (le_of_lt h)]
  · rw [if_neg h, max_eq_left (not_lt.mp h)]

/-- The strict-improvement update of the minimizing loops is `min`. -/
theorem if_lt_eq_min (a b : E) : (if b < a then b else a) = min a b := by
  by_cases h : b < a
  · rw [if_pos h, min_eq_right (le_of_lt h)]
  · rw [if_neg h, min_eq_left (not_lt.mp h)]

/-- A max-fold dominates its base. -/
theorem foldlMax_le_self (g : Pos → E) :
    ∀ (l : List Pos) (a : E), a ≤ l.foldl (fun x m => max x (g m)) a := by
  intro l
  induction l with
  | nil => intro a; exact le_refl a
  | cons m rest ih =>
    intro a
    exact le_trans (le_max_left a (g m)) (ih (max a (g m)))

/-- A min-fold is dominated by its base. -/
theorem foldlMin_le_self (g : Pos → E) :
    ∀ (l : List Pos) (a : E), l.foldl (fun x m => min x (g m)) a ≤ a := by
  intro l
  induction l with
  | nil => intro a; exact le_refl a
  | cons m rest ih =>
    intro a
    exact le_trans (ih (min a (g m))) (min_le_left a (g m))

/-- Max-folds are monotone in the base. -/
theorem foldlMax_mono (g : Pos → E) :
    ∀ (l : List Pos) (a b : E), a ≤ b →
      l.foldl (fun x m => max x (g m)) a ≤ l.foldl (fun x m => max x (g m)) b := by
  intro l
  induction l with
  | nil => intro a b hab; exact hab
  | cons m rest ih =>
    intro a b hab
    exact ih _ _ (max_le_max hab (le_refl (g m)))

/-- Min-folds are monotone in the base. -/
theorem foldlMin_mono (g : Pos → E) :
    ∀ (l : List Pos) (a b : E), a ≤ b →
      l.foldl (fun x m => min x (g m)) a ≤ l.foldl (fun x m => min x (g m)) b := by
  intro l
  induction l with
  | nil => intro a b hab; exact hab
  | cons m rest ih =>
    intro a b hab
    exact ih _ _ (min_le_min hab (le_refl (g m)))

/-- A max-fold splits into its base and the bottom-based fold. -/
theorem foldlMax_decomp (g : Pos → E) :
    ∀ (l : List Pos) (a : E),
      l.foldl (fun x m => max x (g m)) a =
        max a (l.foldl (fun x m => max x (g m)) ⊥) := by
  intro l
  induction l with
  | nil => intro a; rw [List.foldl_nil, List.foldl_nil, max_eq_left bot_le]
  | cons m rest ih =>
    intro a
    rw [List.foldl_cons, List.foldl_cons, ih (max a (g m)),
      ih (max ⊥ (g m)), max_eq_right (bot_le : (⊥ : E) ≤ g m), max_assoc]

/-- A min-fold splits into its base and the top-based fold. -/
theorem foldlMin_decomp (g : Pos → E) :
    ∀ (l : List Pos) (a : E),
      l.foldl (fun x m => min x (g m)) a =
        min a (l.foldl (fun x m => min x (g m)) ⊤) := by
  intro l
  induction l with
  | nil => intro a; rw [List.foldl_nil, List.foldl_nil, min_eq_left le_top]
  | cons m rest ih =>
    intro a
    rw [List.foldl_cons, List.foldl_cons, ih (min a (g m)),
      ih (min ⊤ (g m)), min_eq_right (le_top : g m ≤ (⊤ : E)), min_assoc]

/-- The minimax maximizing loop computes a max-fold. -/
theorem mmMaxGo_val (g : Pos → E) :
    ∀ (moves : List Pos) (best : E) (bm : Option Pos),
      (mmMaxGo g moves best bm).1 =
        moves.foldl (fun x m => max x (g m)) best := by
  intro moves
  induction moves with
  | nil => intro best bm; rfl
  | cons m rest ih =>
    intro best bm
    unfold mmMaxGo
    rw [List.foldl_cons]
    by_cases h : best < g m
    · rw [if_pos h, ih, max_eq_right (le_of_lt h)]
    · rw [if_neg h, ih, max_eq_left (not_lt.mp h)]

/-- The minimax minimizing loop computes a min-fold. -/
theorem mmMinGo_val (g : Pos → E) :
    ∀ (moves : List Pos) (best : E) (bm : Option Pos),
      (mmMinGo g moves best bm).1 =
        moves.foldl (fun x m => min x (g m)) best := by
  intro moves
  induction moves with
  | nil => intro best bm; rfl
  | cons m rest ih =>
    intro best bm
    unfold mmMinGo
    rw [List.foldl_cons]
    by_cases h : g m < best
    · rw [if_pos h, ih, min_eq_right (le_of_lt h)]
    · rw [if_neg h, ih, min_eq_left (not_lt.mp h)]

/-- The alpha-beta maximizing loop only improves on its running best. -/
theorem abMaxGo_best_le (f : Pos → E → E → E) (beta : E) :
    ∀ (moves : List Pos) (alpha best : E) (bm : Option Pos),
      best ≤ (abMaxGo f false beta moves alpha best bm).1 := by
  intro moves
  induction moves with
  | nil => intro alpha best bm; exact le_refl best
  | cons m rest ih =>
    intro alpha best bm
    unfold abMaxGo
    rw [if_neg Bool.false_ne_true]
    have hb2 : best ≤ (if best < f m alpha beta then f m alpha beta
        else best) := by
      rw [if_lt_eq_max]; exact le_max_left _ _
    by_cases hcut : beta ≤ max alpha (f m alpha beta)
    · rw [if_pos hcut]; exact hb2
    · rw [if_neg hcut]; exact le_trans hb2 (ih _ _ _)

/-- The alpha-beta minimizing loop only lowers its running best. -/
theorem abMinGo_best_ge (f : Pos → E → E → E) (alpha : E) :
    ∀ (moves : List Pos) (beta best : E) (bm : Option Pos),
      (abMinGo f false alpha moves beta best bm).1 ≤ best := by
  intro moves
  induction moves with
  | nil => intro beta best bm; exact le_refl best
  | cons m rest ih =>
    intro beta best bm
    unfold abMinGo
    rw [if_neg Bool.false_ne_true]
    have hb2 : (if f m alpha beta < best then f m alpha beta else best) ≤
        best := by
      rw [if_lt_eq_min]; exact min_le_left _ _
    by_cases hcut : min beta (f m alpha beta) ≤ alpha
    · rw [if_pos hcut]; exact hb2
    · rw [if_neg hcut]; exact le_trans (ih _ _ _) hb2

/-- Fail-soft correctness of the alpha-beta maximizing loop: relative to the
window `(alpha, beta)`, the loop value is exact when it lies inside the
window, an upper bound on the true max-fold when it fails low, and a lower
bound when it fails high. `g` is the exact (full-width) value of each child
and `hfg` is the inductive hypothesis for the children. -/
theorem abMaxGo_sandwich (f : Pos → E → E → E) (g : Pos → E) (beta : E)
    (hfg : ∀ m a, a < beta →
      ((f m a beta ≤ a → g m ≤ f m a beta) ∧
        (a < f m a beta → f m a beta < beta → f m a beta = g m) ∧
        (beta ≤ f m a beta → f m a beta ≤ g m))) :
    ∀ (moves : List Pos) (alpha best : E) (bm : Option Pos),
      alpha < beta → best ≤ alpha →
      (((abMaxGo f false beta moves alpha best bm).1 ≤ alpha →
          moves.foldl (fun x m => max x (g m)) best ≤
            (abMaxGo f false beta moves alpha best bm).1) ∧
        (alpha < (abMaxGo f false beta moves alpha best bm).1 →
          (abMaxGo f false beta moves alpha best bm).1 < beta →
          (abMaxGo f false beta moves alpha best bm).1 =
            moves.foldl (fun x m => max x (g m)) best) ∧
        (beta ≤ (abMaxGo f false beta moves alpha best bm).1 →
          (abMaxGo f false beta moves alpha best bm).1 ≤
            moves.foldl (fun x m => max x (g m)) best)) := by
  intro moves
  induction moves with
  | nil =>
    intro alpha best bm hab hba
    refine ⟨?_, ?_, ?_⟩
    · intro _
      exact le_refl best
    · intro h1 _
      exact absurd h1 (not_lt.mpr hba)
    · intro h1
      exact absurd (lt_of_lt_of_le hab h1) (not_lt.mpr hba)
  | cons m rest ih =>
    intro alpha best bm hab hba
    obtain ⟨hL, hE, hU⟩ := hfg m alpha hab
    unfold abMaxGo
    rw [if_neg Bool.false_ne_true]
    dsimp only
    rw [if_lt_eq_max, List.foldl_cons]
    by_cases hcut : beta ≤ max alpha (f m alpha beta)
    · rw [if_pos hcut]
      have hsc : beta ≤ f m alpha beta := by
        rcases le_max_iff.mp hcut with h | h
        · exact absurd h (not_le.mpr hab)
        · exact h
      have hbest2 : max best (f m alpha beta) = f m alpha beta :=
        max_eq_right (le_trans hba (le_trans (le_of_lt hab) hsc))
      rw [hbest2]
      refine ⟨?_, ?_, ?_⟩
      · intro h1
        exact absurd (lt_of_lt_of_le hab (le_trans hsc h1))
          (by simp)
      · intro _ h2
        exact absurd (lt_of_le_of_lt hsc h2) (by simp)
      · intro _
        refine le_trans (hU hsc) ?_
        refine le_trans (le_max_right best (g m)) ?_
        exact foldlMax_le_self g rest (max best (g m))
    · rw [if_neg hcut]
      have ha2b : max alpha (f m alpha beta) < beta := not_le.mp hcut
      have hscb : f m alpha beta < beta :=
        lt_of_le_of_lt (le_max_right alpha (f m alpha beta)) ha2b
      have hba2 : max best (f m alpha beta) ≤ max alpha (f m alpha beta) :=
        max_le_max hba (le_refl _)
      obtain ⟨ihL, ihE, ihU⟩ := ih (max alpha (f m alpha beta))
        (max best (f m alpha beta)) (if best < f m alpha beta then some m
          else bm) ha2b hba2
      have hMdec := foldlMax_decomp g rest
      by_cases hsca : f m alpha beta ≤ alpha
      · -- child failed low: g m ≤ score ≤ alpha, window unchanged
        have halpha2 : max alpha (f m alpha beta) = alpha := max_eq_left hsca
        have hgm : g m ≤ f m alpha beta := hL hsca
        rw [halpha2] at ihL ihE ihU ⊢
        refine ⟨?_, ?_, ?_⟩
        · intro h1
          refine le_trans ?_ (ihL h1)
          refine le_trans (foldlMax_mono g rest _ _
            (max_le_max (le_refl best) hgm)) (le_refl _)
        · intro h1 h2
          have hv := ihE h1 h2
          rw [hMdec (max best (f m alpha beta))] at hv
          rw [hMdec (max best (g m))]
          set M := rest.foldl (fun x m => max x (g m)) ⊥ with hM
          have hbs : max best (f m alpha beta) ≤ alpha :=
            le_trans hba2 (le_of_eq halpha2)
          have hbg : max best (g m) ≤ alpha :=
            max_le hba (le_trans hgm hsca)
          have hvM : (abMaxGo f false beta rest alpha
              (max best (f m alpha beta))
              (if best < f m alpha beta then some m else bm)).1 = M := by
            rcases max_cases (max best (f m alpha beta)) M with
              ⟨he, _⟩ | ⟨he, _⟩
            · have hva : (abMaxGo f false beta rest alpha
                  (max best (f m alpha beta))
                  (if best < f m alpha beta then some m else bm)).1 ≤
                  alpha := by
                rw [hv, he]
                exact hbs
              exact absurd h1 (not_lt.mpr hva)
            · rw [hv, he]
          have hMgt : max best (g m) ≤ M :=
            le_of_lt (lt_of_le_of_lt hbg (hvM ▸ h1))
          rw [hvM]
          exact (max_eq_right hMgt).symm
        · intro h1
          have hv := ihU h1
          rw [hMdec (max best (f m alpha beta))] at hv
          rw [hMdec (max best (g m))]
          set M := rest.foldl (fun x m => max x (g m)) ⊥ with hM
          have hbs : max best (f m alpha beta) ≤ alpha :=
            le_trans hba2 (le_of_eq halpha2)
          have hvM : (abMaxGo f false beta rest alpha
              (max best (f m alpha beta)) (if best < f m alpha beta then
                some m else bm)).1 ≤ M := by
            rcases le_max_iff.mp hv with h | h
            · exact absurd (lt_of_lt_of_le hab h1)
                (not_lt.mpr (le_trans h hbs))
            · exact h
          exact le_trans hvM (le_max_right _ _)
      · -- child value inside the window: exact
        have hsca2 : alpha < f m alpha beta := not_le.mp hsca
        have hgm : f m alpha beta = g m := hE hsca2 hscb
        have halpha2 : max alpha (f m alpha beta) = f m alpha beta :=
          max_eq_right (le_of_lt hsca2)
        have hbest2 : max best (f m alpha beta) = f m alpha beta :=
          max_eq_right (le_trans hba (le_of_lt hsca2))
        rw [halpha2, hbest2] at ihL ihE ihU ⊢
        have hvlo : f m alpha beta ≤ (abMaxGo f false beta rest
            (f m alpha beta) (f m alpha beta)
            (if best < f m alpha beta then some m else bm)).1 := by
          have := abMaxGo_best_le f beta rest (f m alpha beta)
            (f m alpha beta) (if best < f m alpha beta then some m else bm)
          exact this
        have hTeq : rest.foldl (fun x m => max x (g m)) (max best (g m)) =
            rest.foldl (fun x m => max x (g m)) (f m alpha beta) := by
          congr 1
          rw [← hgm]
          exact (max_eq_right (le_trans hba (le_of_lt hsca2))).symm ▸ rfl
        refine ⟨?_, ?_, ?_⟩
        · intro h1
          exact absurd (lt_of_lt_of_le hsca2 (le_trans hvlo h1))
            (by simp)
        · intro h1 h2
          rw [hTeq]
          by_cases hv2 : f m alpha beta <
              (abMaxGo f false beta rest (f m alpha beta) (f m alpha beta)
                (if best < f m alpha beta then some m else bm)).1
          · exact ihE hv2 h2
          · have hveq : (abMaxGo f false beta rest (f m alpha beta)
                (f m alpha beta) (if best < f m alpha beta then some m
                  else bm)).1 = f m alpha beta :=
              le_antisymm (not_lt.mp hv2) hvlo
            rw [hveq]
            refine le_antisymm ?_ ?_
            · exact foldlMax_le_self g rest (f m alpha beta)
            · have := ihL (le_of_eq hveq)
              rw [hveq] at this
              exact this
        · intro h1
          rw [hTeq]
          exact ihU h1

/-- Fail-soft correctness of the alpha-beta minimizing loop, dual to
`abMaxGo_sandwich`. -/
theorem abMinGo_sandwich (f : Pos → E → E → E) (g : Pos → E) (alpha : E)
    (hfg : ∀ m b, alpha < b →
      ((f m alpha b ≤ alpha → g m ≤ f m alpha b) ∧
        (alpha < f m alpha b → f m alpha b < b → f m alpha b = g m) ∧
        (b ≤ f m alpha b → f m alpha b ≤ g m))) :
    ∀ (moves : List Pos) (beta best : E) (bm : Option Pos),
      alpha < beta → beta ≤ best →
      (((abMinGo f false alpha moves beta best bm).1 ≤ alpha →
          moves.foldl (fun x m => min x (g m)) best ≤
            (abMinGo f false alpha moves beta best bm).1) ∧
        (alpha < (abMinGo f false alpha moves beta best bm).1 →
          (abMinGo f false alpha moves beta best bm).1 < beta →
          (abMinGo f false alpha moves beta best bm).1 =
            moves.foldl (fun x m => min x (g m)) best) ∧
        (beta ≤ (abMinGo f false alpha moves beta best bm).1 →
          (abMinGo f false alpha moves beta best bm).1 ≤
            moves.foldl (fun x m => min x (g m)) best)) := by
  intro moves
  induction moves with
  | nil =>
    intro beta best bm hab hbb
    refine ⟨?_, ?_, ?_⟩
    · intro h1
      exact absurd (lt_of_lt_of_le hab hbb) (not_lt.mpr h1)
    · intro _ h2
      exact absurd h2 (not_lt.mpr hbb)
    · intro _
      exact le_refl best
  | cons m rest ih =>
    intro beta best bm hab hbb
    obtain ⟨hL, hE, hU⟩ := hfg m beta hab
    unfold abMinGo
    rw [if_neg Bool.false_ne_true]
    dsimp only
    rw [if_lt_eq_min, List.foldl_cons]
    by_cases hcut : min beta (f m alpha beta) ≤ alpha
    · rw [if_pos hcut]
      have hsc : f m alpha beta ≤ alpha := by
        rcases min_le_iff.mp hcut with h | h
        · exact absurd h (not_le.mpr hab)
        · exact h
      have hbest2 : min best (f m alpha beta) = f m alpha beta :=
        min_eq_right (le_trans hsc (le_trans (le_of_lt hab) hbb))
      rw [hbest2]
      refine ⟨?_, ?_, ?_⟩
      · intro _
        refine le_trans (foldlMin_le_self g rest (min best (g m))) ?_
        exact le_trans (min_le_right best (g m)) (hL hsc)
      · intro h1 _
        exact absurd h1 (not_lt.mpr hsc)
      · intro h1
        exact absurd (lt_of_lt_of_le hab h1) (not_lt.mpr hsc)
    · rw [if_neg hcut]
      have hab2 : alpha < min beta (f m alpha beta) := not_le.mp hcut
      have hsca : alpha < f m alpha beta :=
        lt_of_lt_of_le hab2 (min_le_right beta (f m alpha beta))
      have hbb2 : min beta (f m alpha beta) ≤ min best (f m alpha beta) :=
        min_le_min hbb (le_refl _)
      obtain ⟨ihL, ihE, ihU⟩ := ih (min beta (f m alpha beta))
        (min best (f m alpha beta)) (if f m alpha beta < best then some m
          else bm) hab2 hbb2
      have hMdec := foldlMin_decomp g rest
      by_cases hscb : beta ≤ f m alpha beta
      · -- child failed high: g m ≥ score ≥ beta, window unchanged
        have hbeta2 : min beta (f m alpha beta) = beta := min_eq_left hscb
        have hgm : f m alpha beta ≤ g m := hU hscb
        rw [hbeta2] at ihL ihE ihU ⊢
        refine ⟨?_, ?_, ?_⟩
        · intro h1
          have hv := ihL h1
          rw [hMdec (min best (f m alpha beta))] at hv
          rw [hMdec (min best (g m))]
          set M := rest.foldl (fun x m => min x (g m)) ⊤ with hM
          have hbs : beta ≤ min best (f m alpha beta) :=
            le_min hbb hscb
          have hvM : M ≤ (abMinGo f false alpha rest beta
              (min best (f m alpha beta))
              (if f m alpha beta < best then some m else bm)).1 := by
            rcases min_cases (min best (f m alpha beta)) M with
              ⟨he, _⟩ | ⟨he, _⟩
            · rw [he] at hv
              exact absurd hab
                (not_lt.mpr (le_trans (le_trans hbs hv) h1))
            · rw [he] at hv
              exact hv
          exact le_trans (min_le_right _ _) hvM
        · intro h1 h2
          have hv := ihE h1 h2
          rw [hMdec (min best (f m alpha beta))] at hv
          rw [hMdec (min best (g m))]
          set M := rest.foldl (fun x m => min x (g m)) ⊤ with hM
          have hbs : beta ≤ min best (f m alpha beta) :=
            le_min hbb hscb
          have hvM : (abMinGo f false alpha rest beta
              (min best (f m alpha beta))
              (if f m alpha beta < best then some m else bm)).1 = M := by
            rcases min_cases (min best (f m alpha beta)) M with
              ⟨he, _⟩ | ⟨he, _⟩
            · have hva : beta ≤ (abMinGo f false alpha rest beta
                  (min best (f m alpha beta))
                  (if f m alpha beta < best then some m else bm)).1 := by
                rw [hv, he]
                exact hbs
              exact absurd h2 (not_lt.mpr hva)
            · rw [hv, he]
          have hMlt : M ≤ min best (g m) := by
            refine le_of_lt (lt_of_lt_of_le (hvM ▸ h2) ?_)
            exact le_min hbb (le_trans hscb hgm)
          rw [hvM]
          exact (min_eq_right hMlt).symm
        · intro h1
          have hv := ihU h1
          rw [hMdec (min best (f m alpha beta))] at hv
          rw [hMdec (min best (g m))]
          set M := rest.foldl (fun x m => min x (g m)) ⊤ with hM
          rcases le_min_iff.mp hv with ⟨hv1, hv2⟩
          refine le_min (le_min ?_ ?_) hv2
          · exact le_trans hv1 (min_le_left best (f m alpha beta))
          · exact le_trans (le_trans hv1
              (min_le_right best (f m alpha beta))) hgm
      · -- child value inside the window: exact
        have hscb2 : f m alpha beta < beta := not_le.mp hscb
        have hgm : f m alpha beta = g m := hE hsca hscb2
        have hbeta2 : min beta (f m alpha beta) = f m alpha beta :=
          min_eq_right (le_of_lt hscb2)
        have hbest2 : min best (f m alpha beta) = f m alpha beta :=
          min_eq_right (le_trans (le_of_lt hscb2) hbb)
        rw [hbeta2, hbest2] at ihL ihE ihU ⊢
        have hvhi := abMinGo_best_ge f alpha rest (f m alpha beta)
          (f m alpha beta) (if f m alpha beta < best then some m else bm)
        have hTeq : rest.foldl (fun x m => min x (g m)) (min best (g m)) =
            rest.foldl (fun x m => min x (g m)) (f m alpha beta) := by
          congr 1
          rw [← hgm]
          exact min_eq_right (le_trans (le_of_lt hscb2) hbb)
        refine ⟨?_, ?_, ?_⟩
        · intro h1
          rw [hTeq]
          exact ihL h1
        · intro h1 h2
          rw [hTeq]
          by_cases hv2 : (abMinGo f false alpha rest (f m alpha beta)
              (f m alpha beta)
              (if f m alpha beta < best then some m else bm)).1 <
              f m alpha beta
          · exact ihE h1 hv2
          · have hveq : (abMinGo f false alpha rest (f m alpha beta)
                (f m alpha beta)
                (if f m alpha beta < best then some m else bm)).1 =
                f m alpha beta :=
              le_antisymm hvhi (not_lt.mp hv2)
            rw [hveq]
            refine le_antisymm ?_ ?_
            · have := ihU (le_of_eq hveq.symm)
              rw [hveq] at this
              exact this
            · exact foldlMin_le_self g rest (f m alpha beta)
        · intro h1
          exact absurd (lt_of_le_of_lt (le_trans h1 hvhi) hscb2)
            (by simp)

/-- Fail-soft sandwich for the full alpha-beta search against the reference
candidate-minimax, by induction on depth. -/
theorem minimaxAlphaBeta_sandwich (N : Nat) (s : AISettings) (orig : Player) :
    ∀ (depth : Nat) (board : Board) (player : Player) (isMax : Bool)
      (alpha beta : E), alpha < beta →
      (((minimaxAlphaBeta N s false depth board player isMax alpha beta
            orig).1 ≤ alpha →
          (minimaxOverCandidates N s depth board player isMax orig).1 ≤
            (minimaxAlphaBeta N s false depth board player isMax alpha beta
              orig).1) ∧
        (alpha < (minimaxAlphaBeta N s false depth board player isMax alpha
            beta orig).1 →
          (minimaxAlphaBeta N s false depth board player isMax alpha beta
            orig).1 < beta →
          (minimaxAlphaBeta N s false depth board player isMax alpha beta
            orig).1 =
            (minimaxOverCandidates N s depth board player isMax orig).1) ∧
        (beta ≤ (minimaxAlphaBeta N s false depth board player isMax alpha
            beta orig).1 →
          (minimaxAlphaBeta N s false depth board player isMax alpha beta
            orig).1 ≤
            (minimaxOverCandidates N s depth board player isMax orig).1)) := by
  intro depth
  induction depth with
  | zero =>
    intro board player isMax alpha beta hab
    exact ⟨fun _ => le_refl _, fun _ _ => rfl, fun _ => le_refl _⟩
  | succ d ih =>
    intro board player isMax alpha beta hab
    unfold minimaxAlphaBeta minimaxOverCandidates
    rw [if_neg Bool.false_ne_true]
    dsimp only
    by_cases hmv : (getCandidateMoves N board player false s).isEmpty
    · rw [if_pos hmv, if_pos hmv]
      exact ⟨fun _ => le_refl _, fun _ _ => rfl, fun _ => le_refl _⟩
    · rw [if_neg hmv, if_neg hmv]
      cases isMax
      · rw [if_neg (by decide : ¬ (false = true)),
          if_neg (by decide : ¬ (false = true))]
        rw [mmMinGo_val]
        refine abMinGo_sandwich _ _ alpha ?_
          (getCandidateMoves N board player false s) beta ⊤ none hab le_top
        intro m b hb
        exact ih (playAndCapture N board player m) (opponent player) true
          alpha b hb
      · rw [if_pos (rfl : true = true), if_pos (rfl : true = true)]
        rw [mmMaxGo_val]
        refine abMaxGo_sandwich _ _ beta ?_
          (getCandidateMoves N board player false s) alpha ⊥ none hab bot_le
        intro m a ha
        exact ih (playAndCapture N board player m) (opponent player) false
          a beta ha

/-- Root loops over the same candidates with equal child scores coincide. -/
theorem rootGo_congr (f g : Pos → E) (timeUp : Bool) :
    ∀ (moves : List Pos) (best : E) (bm : Option Pos),
      (∀ m ∈ moves, f m = g m) →
      rootGo f timeUp moves best bm = rootGo g timeUp moves best bm := by
  intro moves
  induction moves with
  | nil => intro best bm _; rfl
  | cons m rest ih =>
    intro best bm hfg
    unfold rootGo
    rw [hfg m (List.mem_cons_self m rest)]
    by_cases ht : timeUp = true
    · rw [if_pos ht, if_pos ht]
    · rw [if_neg ht, if_neg ht]
      by_cases hlt : best < g m
      · rw [if_pos hlt, if_pos hlt]
        exact ih _ _ (fun x hx => hfg x (List.mem_cons_of_mem m hx))
      · rw [if_neg hlt, if_neg hlt]
        exact ih _ _ (fun x hx => hfg x (List.mem_cons_of_mem m hx))

/-- C2 (amended): with no time limit, the best score and best move computed
by the alpha-beta search as driven from `findBestMove` equal those of plain
minimax run over the same ordered, trimmed candidate move lists
(`minimaxOverCandidates`); the pruning itself never changes the result. -/
theorem findBestSearch_alphabeta_eq_overCandidates (N : Nat) (board : Board)
    (player : Player) (depth maxTimeMs base : Nat) :
    findBestSearch N board player
        ⟨Algorithm.alphabeta, depth, maxTimeMs, base⟩ false =
      findBestSearchOverCandidates N board player
        ⟨Algorithm.alphabeta, depth, maxTimeMs, base⟩ := by
  unfold findBestSearch findBestSearchOverCandidates
  dsimp only
  refine rootGo_congr _ _ false _ ⊥ none ?_
  intro m _
  rw [if_neg (by intro hcontra; exact absurd hcontra (by decide))]
  have hfin := minimaxAlphaBeta_fin N
    ⟨Algorithm.alphabeta, depth, maxTimeMs, base⟩ false (depth - 1)
    (playAndCapture N board player m) (opponent player) false ⊥ ⊤ player
  have hsand := (minimaxAlphaBeta_sandwich N
    ⟨Algorithm.alphabeta, depth, maxTimeMs, base⟩ player (depth - 1)
    (playAndCapture N board player m) (opponent player) false ⊥ ⊤
    (by exact bot_lt_top)).2.1
  exact hsand hfin.1 hfin.2

set_option maxRecDepth 1000000 in
/-- C2 counterexample: on this 4×4 position with Black to move, search
depth 2, no time limit and candidate base 6, the best score computed by the
alpha-beta search as driven from `findBestMove` is 21/2, while the driver
running plain minimax computes 19/2: interior candidate trimming hides the
opponent's strongest reply from the alpha-beta search. -/
theorem findBestSearch_alphabeta_vs_minimax_counterexample :
    (findBestSearch 4
        [[Cell.empty, Cell.black, Cell.white, Cell.black],
         [Cell.empty, Cell.empty, Cell.empty, Cell.empty],
         [Cell.empty, Cell.empty, Cell.empty, Cell.empty],
         [Cell.white, Cell.empty, Cell.empty, Cell.empty]] Player.black
        ⟨Algorithm.alphabeta, 2, 0, 6⟩ false).1 ≠
      (findBestSearch 4
        [[Cell.empty, Cell.black, Cell.white, Cell.black],
         [Cell.empty, Cell.empty, Cell.empty, Cell.empty],
         [Cell.empty, Cell.empty, Cell.empty, Cell.empty],
         [Cell.white, Cell.empty, Cell.empty, Cell.empty]] Player.black
        ⟨Algorithm.minimax, 2, 0, 6⟩ false).1 := by
  with_unfolding_all decide

/-- The function `List.contains` agrees with membership (the JS `Set.has`). -/
theorem contains_iff_memP (l : List Pos) (p : Pos) : l.contains p ↔ p ∈ l :=
  List.elem_iff

/-- Membership in `getNeighbors`: in-bounds orthogonal adjacency. -/
theorem mem_getNeighbors {N row col : Nat} {q : Pos} :
    q ∈ getNeighbors N row col ↔
      inBounds N q ∧
        ((q.1 + 1 = row ∧ q.2 = col) ∨ (q.1 = row + 1 ∧ q.2 = col) ∨
         (q.1 = row ∧ q.2 + 1 = col) ∨ (q.1 = row ∧ q.2 = col + 1)) := by
  obtain ⟨a, b⟩ := q
  rw [getNeighbors]
  simp only [List.mem_filterMap, List.mem_cons, List.not_mem_nil, or_false]
  constructor
  · rintro ⟨d, hd, hfd⟩
    rcases hd with rfl | rfl | rfl | rfl <;>
    · dsimp only at hfd
      split_ifs at hfd with hcond
      rw [Option.some.injEq, Prod.mk.injEq] at hfd
      exact ⟨⟨by omega, by omega⟩, by omega⟩
  · rintro ⟨⟨ha, hb⟩, hcase | hcase | hcase | hcase⟩
    · refine ⟨(-1, 0), by simp, ?_⟩
      dsimp only
      rw [if_pos (by omega)]
      rw [Option.some.injEq, Prod.mk.injEq]
      omega
    · refine ⟨(1, 0), by simp, ?_⟩
      dsimp only
      rw [if_pos (by omega)]
      rw [Option.some.injEq, Prod.mk.injEq]
      omega
    · refine ⟨(0, -1), by simp, ?_⟩
      dsimp only
      rw [if_pos (by omega)]
      rw [Option.some.injEq, Prod.mk.injEq]
      omega
    · refine ⟨(0, 1), by simp, ?_⟩
      dsimp only
      rw [if_pos (by omega)]
      rw [Option.some.injEq, Prod.mk.injEq]
      omega

theorem getNeighbors_inBounds {N row col : Nat} {q : Pos}
    (h : q ∈ getNeighbors N row col) : inBounds N q :=
  (mem_getNeighbors.mp h).1

theorem getNeighbors_symm {N : Nat} {p q : Pos} (hp : inBounds N p)
    (h : q ∈ getNeighbors N p.1 p.2) : p ∈ getNeighbors N q.1 q.2 := by
  rw [mem_getNeighbors] at h ⊢
  exact ⟨hp, by omega⟩

theorem getNeighbors_length_le (N row col : Nat) :
    (getNeighbors N row col).length ≤ 4 := by
  rw [getNeighbors]
  exact le_trans (List.length_filterMap_le _ _) (by simp)

/-- The list `rowMajor` enumerates exactly the in-bounds positions. -/
theorem mem_rowMajor {N : Nat} {p : Pos} : p ∈ rowMajor N ↔ inBounds N p := by
  obtain ⟨a, b⟩ := p
  simp only [rowMajor, List.mem_flatMap, List.mem_map, List.mem_range, inBounds]
  constructor
  · rintro ⟨r, hr, c, hc, h⟩
    rw [Prod.mk.injEq] at h
    obtain ⟨rfl, rfl⟩ := h
    exact ⟨hr, hc⟩
  · rintro ⟨ha, hb⟩
    exact ⟨a, ha, b, hb, rfl⟩

theorem rowMajor_nodup (N : Nat) : (rowMajor N).Nodup := by
  have h : rowMajor N = (List.range N).product (List.range N) := rfl
  rw [h]
  exact List.Nodup.product (List.nodup_range N) (List.nodup_range N)

/-- Cells reachable from a stone of the group's color carry that color. -/
theorem reachC_colored {N : Nat} {board : Board} {color : Cell} {p q : Pos}
    (hp : cellAt board p.1 p.2 = color) (hr : ReachC N board color p q) :
    cellAt board q.1 q.2 = color := by
  induction hr with
  | refl => exact hp
  | tail _ step _ => exact step.2

/-- Cells reachable from an in-bounds cell are in-bounds. -/
theorem reachC_inBounds {N : Nat} {board : Board} {color : Cell} {p q : Pos}
    (hp : inBounds N p) (hr : ReachC N board color p q) : inBounds N q := by
  induction hr with
  | refl => exact hp
  | tail _ step _ => exact getNeighbors_inBounds step.1

/-- Same-color reachability is symmetric from an in-bounds colored cell. -/
theorem reachC_symm {N : Nat} {board : Board} {color : Cell} {p q : Pos}
    (hp : inBounds N p) (hc : cellAt board p.1 p.2 = color)
    (hr : ReachC N board color p q) : ReachC N board color q p := by
  induction hr with
  | refl => exact Relation.ReflTransGen.refl
  | tail hpx step ih =>
    refine Relation.ReflTransGen.head ⟨getNeighbors_symm ?_ step.1, ?_⟩ ih
    · exact reachC_inBounds hp hpx
    · exact reachC_colored hc hpx

/-- Membership after the conditional-push fold used by the flood-fill stack. -/
theorem foldl_push_mem (C : Pos → Prop) [DecidablePred C] :
    ∀ (l st : List Pos) (x : Pos),
      (x ∈ l.foldl (fun acc q => if C q then q :: acc else acc) st) ↔
        x ∈ st ∨ (x ∈ l ∧ C x) := by
  intro l
  induction l with
  | nil => simp
  | cons q rest ih =>
    intro st x
    simp only [List.foldl_cons]
    rw [ih]
    by_cases hq : C q
    · rw [if_pos hq]
      simp only [List.mem_cons]
      constructor
      · rintro ((rfl | hst) | ⟨hr, hC⟩)
        · exact Or.inr ⟨Or.inl rfl, hq⟩
        · exact Or.inl hst
        · exact Or.inr ⟨Or.inr hr, hC⟩
      · rintro (hst | ⟨rfl | hr, hC⟩)
        · exact Or.inl (Or.inr hst)
        · exact Or.inl (Or.inl rfl)
        · exact Or.inr ⟨hr, hC⟩
    · rw [if_neg hq]
      constructor
      · rintro (hst | ⟨hr, hC⟩)
        · exact Or.inl hst
        · exact Or.inr ⟨List.mem_cons_of_mem _ hr, hC⟩
      · rintro (hst | ⟨hmem, hC⟩)
        · exact Or.inl hst
        · rcases List.mem_cons.mp hmem with rfl | hr
          · exact absurd hC hq
          · exact Or.inr ⟨hr, hC⟩

/-- Length bound for the conditional-push fold. -/
theorem foldl_push_length (C : Pos → Prop) [DecidablePred C] :
    ∀ (l st : List Pos),
      (l.foldl (fun acc q => if C q then q :: acc else acc) st).length ≤
        st.length + l.length := by
  intro l
  induction l with
  | nil => simp
  | cons q rest ih =>
    intro st
    simp only [List.foldl_cons]
    refine le_trans (ih _) ?_
    by_cases hq : C q
    · rw [if_pos hq]
      simp only [List.length_cons]
      omega
    · rw [if_neg hq]
      simp only [List.length_cons]
      omega

/-- Visiting a fresh position strictly shrinks the unvisited count. -/
theorem filter_notMem_cons_length :
    ∀ {l : List Pos}, l.Nodup → ∀ {a : Pos}, a ∈ l → ∀ {vis : List Pos},
      a ∉ vis →
      (l.filter (fun x => decide (x ∉ a :: vis))).length + 1 =
        (l.filter (fun x => decide (x ∉ vis))).length := by
  intro l
  induction l with
  | nil => intro _ a ha; cases ha
  | cons x xs ih =>
    intro hnd a ha vis hav
    rw [List.nodup_cons] at hnd
    rcases List.mem_cons.mp ha with rfl | ha2
    · rw [List.filter_cons, List.filter_cons]
      rw [if_neg (by simp), if_pos (by simpa using hav)]
      have hcongr : xs.filter (fun x => decide (x ∉ a :: vis)) =
          xs.filter (fun x => decide (x ∉ vis)) := by
        apply List.filter_congr
        intro x hx
        have hxa : x ≠ a := fun h => hnd.1 (h ▸ hx)
        simp [List.mem_cons, hxa]
      rw [hcongr, List.length_cons]
    · have hxa : x ≠ a := fun h => hnd.1 (h ▸ ha2)
      rw [List.filter_cons, List.filter_cons]
      by_cases hxv : x ∈ vis
      · rw [if_neg (by simp [hxv]), if_neg (by simp [hxv])]
        exact ih hnd.2 ha2 hav
      · rw [if_pos (by simp [List.mem_cons, hxa, hxv]),
          if_pos (by simp [hxv])]
        simp only [List.length_cons]
        have h := ih hnd.2 ha2 hav
        omega

/-- A closed visited set with the start inside is exactly the reachable set. -/
theorem visited_closed_spec (N : Nat) (board : Board) (color : Cell)
    (start : Pos) (visited : List Pos)
    (h2 : ∀ p ∈ visited, inBounds N p ∧ cellAt board p.1 p.2 = color ∧
      ReachC N board color start p)
    (h5 : ∀ p ∈ visited, ∀ q ∈ getNeighbors N p.1 p.2,
      cellAt board q.1 q.2 = color → q ∈ visited)
    (h6 : start ∈ visited) (hnd : visited.Nodup) :
    visited.reverse.Nodup ∧
      ∀ q, q ∈ visited.reverse ↔ ReachC N board color start q := by
  refine ⟨List.nodup_reverse.mpr hnd, ?_⟩
  intro q
  rw [List.mem_reverse]
  constructor
  · intro hq
    exact (h2 q hq).2.2
  · intro hreach
    induction hreach with
    | refl => exact h6
    | tail hx step ih => exact h5 _ ih _ step.1 step.2

/-- Invariant preservation for the flood-fill loop: if the stack and visited
set describe a partial exploration from `start` with enough fuel left, the
result is exactly the reachable set, without duplicates. -/
theorem getGroupGo_spec (N : Nat) (board : Board) (color : Cell)
    (start : Pos) :
    ∀ (fuel : Nat) (stack visited : List Pos),
      (∀ p ∈ stack, inBounds N p ∧ cellAt board p.1 p.2 = color ∧
        ReachC N board color start p) →
      (∀ p ∈ visited, inBounds N p ∧ cellAt board p.1 p.2 = color ∧
        ReachC N board color start p) →
      (∀ p ∈ visited, ∀ q ∈ getNeighbors N p.1 p.2,
        cellAt board q.1 q.2 = color → q ∈ visited ∨ q ∈ stack) →
      (start ∈ visited ∨ start ∈ stack) →
      visited.Nodup →
      5 * ((rowMajor N).filter (fun x => decide (x ∉ visited))).length +
        stack.length ≤ fuel →
      (getGroupGo N board color fuel stack visited visited).Nodup ∧
        ∀ q, q ∈ getGroupGo N board color fuel stack visited visited ↔
          ReachC N board color start q := by
  intro fuel
  induction fuel with
  | zero =>
    intro stack visited h1 h2 h5 h6 hnd hfuel
    have hs : stack = [] := List.length_eq_zero.mp (by omega)
    subst hs
    refine visited_closed_spec N board color start visited h2 ?_ ?_ hnd
    · intro p hp q hq hqc
      exact (h5 p hp q hq hqc).resolve_right (List.not_mem_nil q)
    · exact h6.resolve_right (List.not_mem_nil start)
  | succ fuel ih =>
    intro stack visited h1 h2 h5 h6 hnd hfuel
    cases stack with
    | nil =>
      refine visited_closed_spec N board color start visited h2 ?_ ?_ hnd
      · intro p hp q hq hqc
        exact (h5 p hp q hq hqc).resolve_right (List.not_mem_nil q)
      · exact h6.resolve_right (List.not_mem_nil start)
    | cons p rest =>
      rw [getGroupGo]
      by_cases hpv : p ∈ visited
      · rw [if_pos (List.elem_iff.mpr hpv)]
        refine ih rest visited
          (fun x hx => h1 x (List.mem_cons_of_mem _ hx)) h2 ?_ ?_ hnd ?_
        · intro x hx q hq hqc
          rcases h5 x hx q hq hqc with h | h
          · exact Or.inl h
          · rcases List.mem_cons.mp h with rfl | h
            · exact Or.inl hpv
            · exact Or.inr h
        · rcases h6 with h | h
          · exact Or.inl h
          · rcases List.mem_cons.mp h with rfl | h
            · exact Or.inl hpv
            · exact Or.inr h
        · simp only [List.length_cons] at hfuel
          omega
      · rw [if_neg (fun hc => hpv (List.elem_iff.mp hc))]
        dsimp only
        obtain ⟨hpb, hpc, hpr⟩ := h1 p (List.mem_cons_self p rest)
        have hmem : ∀ x, (x ∈ (getNeighbors N p.1 p.2).foldl (fun st q =>
            if cellAt board q.1 q.2 = color ∧ ¬ (p :: visited).contains q then
              q :: st
            else st) rest) ↔ x ∈ rest ∨ (x ∈ getNeighbors N p.1 p.2 ∧
              (cellAt board x.1 x.2 = color ∧
                ¬ (p :: visited).contains x)) :=
          fun x => foldl_push_mem
            (fun q => cellAt board q.1 q.2 = color ∧
              ¬ (p :: visited).contains q)
            (getNeighbors N p.1 p.2) rest x
        have hlen : ((getNeighbors N p.1 p.2).foldl (fun st q =>
            if cellAt board q.1 q.2 = color ∧ ¬ (p :: visited).contains q then
              q :: st
            else st) rest).length ≤ rest.length + 4 := by
          refine le_trans (foldl_push_length
            (fun q => cellAt board q.1 q.2 = color ∧
              ¬ (p :: visited).contains q)
            (getNeighbors N p.1 p.2) rest) ?_
          have h4 := getNeighbors_length_le N p.1 p.2
          omega
        refine ih _ (p :: visited) ?_ ?_ ?_ ?_ ?_ ?_
        · intro x hx
          rcases (hmem x).mp hx with hx | ⟨hnb, hcol, _⟩
          · exact h1 x (List.mem_cons_of_mem _ hx)
          · exact ⟨getNeighbors_inBounds hnb, hcol,
              Relation.ReflTransGen.tail hpr ⟨hnb, hcol⟩⟩
        · intro x hx
          rcases List.mem_cons.mp hx with rfl | hx
          · exact ⟨hpb, hpc, hpr⟩
          · exact h2 x hx
        · intro v hv q hq hqc
          rcases List.mem_cons.mp hv with rfl | hv2
          · by_cases hqpv : q ∈ v :: visited
            · exact Or.inl hqpv
            · refine Or.inr ((hmem q).mpr (Or.inr ⟨hq, hqc, ?_⟩))
              exact fun hcq => hqpv (List.elem_iff.mp hcq)
          · rcases h5 v hv2 q hq hqc with h | h
            · exact Or.inl (List.mem_cons_of_mem _ h)
            · rcases List.mem_cons.mp h with rfl | h
              · exact Or.inl (List.mem_cons_self q visited)
              · exact Or.inr ((hmem q).mpr (Or.inl h))
        · rcases h6 with h | h
          · exact Or.inl (List.mem_cons_of_mem _ h)
          · rcases List.mem_cons.mp h with rfl | h
            · exact Or.inl (List.mem_cons_self start visited)
            · exact Or.inr ((hmem start).mpr (Or.inl h))
        · exact List.nodup_cons.mpr ⟨hpv, hnd⟩
        · have hKdec := filter_notMem_cons_length (rowMajor_nodup N)
            (mem_rowMajor.mpr hpb) hpv
          simp only [List.length_cons] at hfuel
          omega

/-- The function `getGroup` on a nonempty in-bounds cell returns exactly the
connected same-colored component of that cell, without duplicates. -/
theorem getGroup_spec (N : Nat) (board : Board) {p : Pos}
    (hc : cellAt board p.1 p.2 ≠ Cell.empty) (hb : inBounds N p) :
    (getGroup N board p.1 p.2).Nodup ∧
      ∀ q, q ∈ getGroup N board p.1 p.2 ↔
        ReachC N board (cellAt board p.1 p.2) p q := by
  obtain ⟨row, col⟩ := p
  rw [getGroup]
  dsimp only
  rw [if_neg hc]
  apply getGroupGo_spec N board (cellAt board row col) (row, col)
    (5 * N * N + 1) [(row, col)] []
  · intro x hx
    rcases List.mem_cons.mp hx with rfl | hx
    · exact ⟨hb, rfl, Relation.ReflTransGen.refl⟩
    · exact absurd hx (List.not_mem_nil x)
  · intro x hx
    exact absurd hx (List.not_mem_nil x)
  · intro x hx
    exact absurd hx (List.not_mem_nil x)
  · exact Or.inr (List.mem_cons_self _ _)
  · exact List.nodup_nil
  · have h1 : (rowMajor N).filter (fun x => decide (x ∉ ([] : List Pos))) =
        rowMajor N := by
      apply List.filter_eq_self.mpr
      intro a _
      simp
    have h2 : (rowMajor N).length = N * N := by
      have h : rowMajor N = (List.range N) ×ˢ (List.range N) := rfl
      rw [h, List.length_product]
      rw [List.length_range]
    rw [h1, h2, List.length_cons, List.length_nil, Nat.mul_assoc]

/-- Membership after the liberty-collecting inner fold (the JS `Set.add`). -/
theorem foldl_libins_mem (board : Board) :
    ∀ (l acc : List Pos) (x : Pos),
      (x ∈ l.foldl (fun acc q =>
        if cellAt board q.1 q.2 = Cell.empty ∧ ¬ acc.contains q then q :: acc
        else acc) acc) ↔
      x ∈ acc ∨ (x ∈ l ∧ cellAt board x.1 x.2 = Cell.empty) := by
  intro l
  induction l with
  | nil => simp
  | cons q rest ih =>
    intro acc x
    simp only [List.foldl_cons]
    rw [ih]
    by_cases hq : cellAt board q.1 q.2 = Cell.empty ∧ ¬ acc.contains q
    · rw [if_pos hq]
      simp only [List.mem_cons]
      constructor
      · rintro ((rfl | hacc) | ⟨hr, hc⟩)
        · exact Or.inr ⟨Or.inl rfl, hq.1⟩
        · exact Or.inl hacc
        · exact Or.inr ⟨Or.inr hr, hc⟩
      · rintro (hacc | ⟨rfl | hr, hc⟩)
        · exact Or.inl (Or.inr hacc)
        · exact Or.inl (Or.inl rfl)
        · exact Or.inr ⟨hr, hc⟩
    · rw [if_neg hq]
      constructor
      · rintro (hacc | ⟨hr, hc⟩)
        · exact Or.inl hacc
        · exact Or.inr ⟨List.mem_cons_of_mem _ hr, hc⟩
      · rintro (hacc | ⟨hmem, hc⟩)
        · exact Or.inl hacc
        · rcases List.mem_cons.mp hmem with rfl | hr
          · rw [not_and_or, not_not] at hq
            rcases hq with h | h
            · exact absurd hc h
            · exact Or.inl (List.elem_iff.mp h)
          · exact Or.inr ⟨hr, hc⟩

/-- Membership in the full liberty set collected by `countLiberties`. -/
theorem countLib_fold_mem (N : Nat) (board : Board) :
    ∀ (group acc : List Pos) (x : Pos),
      (x ∈ group.foldl (fun libs p =>
        (getNeighbors N p.1 p.2).foldl (fun acc q =>
          if cellAt board q.1 q.2 = Cell.empty ∧ ¬ acc.contains q then q :: acc
          else acc) libs) acc) ↔
      x ∈ acc ∨ ∃ p ∈ group, x ∈ getNeighbors N p.1 p.2 ∧
        cellAt board x.1 x.2 = Cell.empty := by
  intro group
  induction group with
  | nil => simp
  | cons p rest ih =>
    intro acc x
    simp only [List.foldl_cons]
    rw [ih, foldl_libins_mem]
    constructor
    · rintro ((hacc | ⟨hnb, he⟩) | ⟨p2, hp2, hnb, he⟩)
      · exact Or.inl hacc
      · exact Or.inr ⟨p, List.mem_cons_self p rest, hnb, he⟩
      · exact Or.inr ⟨p2, List.mem_cons_of_mem _ hp2, hnb, he⟩
    · rintro (hacc | ⟨p2, hp2, hnb, he⟩)
      · exact Or.inl (Or.inl hacc)
      · rcases List.mem_cons.mp hp2 with rfl | hp2
        · exact Or.inl (Or.inr ⟨hnb, he⟩)
        · exact Or.inr ⟨p2, hp2, hnb, he⟩

/-- A group has zero liberties iff no member has an empty neighbor. -/
theorem countLiberties_eq_zero_iff (N : Nat) (board : Board)
    (group : List Pos) :
    countLiberties N board group = 0 ↔
      ∀ p ∈ group, ∀ q ∈ getNeighbors N p.1 p.2,
        cellAt board q.1 q.2 ≠ Cell.empty := by
  rw [countLiberties, List.length_eq_zero, List.eq_nil_iff_forall_not_mem]
  constructor
  · intro h p hp q hq he
    exact h q ((countLib_fold_mem N board group [] q).mpr
      (Or.inr ⟨p, hp, hq, he⟩))
  · intro h x hx
    rcases (countLib_fold_mem N board group [] x).mp hx with
      hacc | ⟨p, hp, hnb, he⟩
    · exact absurd hacc (List.not_mem_nil x)
    · exact h p hp x hnb he

/-- Setting then reading an entry of a list, fully characterized. -/
theorem getD_set {α : Type} (v d : α) :
    ∀ (l : List α) (i j : Nat),
      (l.set i v).getD j d =
        if i = j ∧ j < l.length then v else l.getD j d := by
  intro l
  induction l with
  | nil =>
    intro i j
    simp
  | cons a as ih =>
    intro i j
    cases i with
    | zero =>
      cases j with
      | zero => simp
      | succ j2 => simp
    | succ i2 =>
      cases j with
      | zero => simp
      | succ j2 =>
        simp only [List.set_cons_succ, List.getD_cons_succ, List.length_cons]
        rw [ih i2 j2]
        by_cases h : i2 = j2 ∧ j2 < as.length
        · rw [if_pos h, if_pos (by omega)]
        · rw [if_neg h, if_neg (by omega)]

/-- Writing a cell with `setCell`, read back through `cellAt` on a
well-formed board. -/
theorem cellAt_setCell {N : Nat} {board : Board} (wf : BoardWF N board)
    {row col : Nat} (hrow : row < N) (hcol : col < N) (v : Cell)
    (r2 c2 : Nat) :
    cellAt (setCell board row col v) r2 c2 =
      if r2 = row ∧ c2 = col then v else cellAt board r2 c2 := by
  have hblen : board.length = N := wf.1
  rw [cellAt, setCell, getD_set]
  by_cases h : row = r2 ∧ r2 < board.length
  · rw [if_pos h]
    obtain ⟨rfl, hlt⟩ := h
    rw [getD_set]
    have hmem : board.getD row [] ∈ board := by
      rw [List.getD_eq_getElem?_getD, List.getElem?_eq_getElem hlt]
      exact List.getElem_mem hlt
    have hrowlen : (board.getD row []).length = N := wf.2 _ hmem
    by_cases h2 : col = c2 ∧ c2 < (board.getD row []).length
    · rw [if_pos h2]
      obtain ⟨rfl, h2b⟩ := h2
      rw [if_pos ⟨rfl, rfl⟩]
    · rw [if_neg h2, if_neg ?_, cellAt]
      rintro ⟨-, rfl⟩
      exact h2 ⟨rfl, by omega⟩
  · rw [if_neg h, if_neg ?_, cellAt]
    rintro ⟨rfl, rfl⟩
    exact h ⟨rfl, by omega⟩

/-- Updating a cell at an in-bounds row preserves well-formedness. -/
theorem setCell_wf {N : Nat} {board : Board} (wf : BoardWF N board)
    {row : Nat} (hrow : row < N) (col : Nat) (v : Cell) :
    BoardWF N (setCell board row col v) := by
  have hlt : row < board.length := by
    rw [wf.1]
    exact hrow
  constructor
  · rw [setCell, List.length_set]
    exact wf.1
  · intro r hr
    rw [setCell] at hr
    rcases List.mem_or_eq_of_mem_set hr with h | h
    · exact wf.2 r h
    · subst h
      rw [List.length_set]
      have hmem : board.getD row [] ∈ board := by
        rw [List.getD_eq_getElem?_getD, List.getElem?_eq_getElem hlt]
        exact List.getElem_mem hlt
      exact wf.2 _ hmem

/-- Clearing a list of in-bounds positions: well-formedness and the cells
of the result. -/
theorem clear_foldl_spec (N : Nat) :
    ∀ (l : List Pos) (b : Board), BoardWF N b → (∀ q ∈ l, inBounds N q) →
      BoardWF N (l.foldl (fun bb q => setCell bb q.1 q.2 Cell.empty) b) ∧
      ∀ x : Pos, inBounds N x →
        cellAt (l.foldl (fun bb q => setCell bb q.1 q.2 Cell.empty) b)
            x.1 x.2 =
          if x ∈ l then Cell.empty else cellAt b x.1 x.2 := by
  intro l
  induction l with
  | nil =>
    intro b wf _
    refine ⟨wf, ?_⟩
    intro x _
    simp
  | cons q rest ih =>
    intro b wf hl
    have hq := hl q (List.mem_cons_self q rest)
    have wf2 : BoardWF N (setCell b q.1 q.2 Cell.empty) :=
      setCell_wf wf hq.1 q.2 Cell.empty
    obtain ⟨wf3, hcells⟩ := ih (setCell b q.1 q.2 Cell.empty) wf2
      (fun x hx => hl x (List.mem_cons_of_mem _ hx))
    simp only [List.foldl_cons]
    refine ⟨wf3, ?_⟩
    intro x hx
    rw [hcells x hx, cellAt_setCell wf hq.1 hq.2 Cell.empty x.1 x.2]
    by_cases h1 : x ∈ rest
    · rw [if_pos h1, if_pos (List.mem_cons_of_mem _ h1)]
    · rw [if_neg h1]
      by_cases h2 : x.1 = q.1 ∧ x.2 = q.2
      · rw [if_pos h2, if_pos ?_]
        rw [List.mem_cons]
        left
        obtain ⟨e1, e2⟩ := h2
        exact Prod.ext e1 e2
      · rw [if_neg h2, if_neg ?_]
        intro hmem
        rcases List.mem_cons.mp hmem with h | h
        · subst h
          exact h2 ⟨rfl, rfl⟩
        · exact h1 h

/-- On a board that agrees with `b0` except that some dead cells (described
by `D`) were cleared, reachability towards `b0` transfers. -/
theorem reach_b0_of_b {N : Nat} {b b0 : Board} {color : Cell}
    (hcol : color ≠ Cell.empty) {D : Pos → Prop}
    (hagree : ∀ p, inBounds N p →
      (cellAt b p.1 p.2 = cellAt b0 p.1 p.2 ∨
        (cellAt b0 p.1 p.2 = color ∧ cellAt b p.1 p.2 = Cell.empty ∧ D p)))
    {q x : Pos} (hreach : ReachC N b color q x) : ReachC N b0 color q x := by
  induction hreach with
  | refl => exact Relation.ReflTransGen.refl
  | tail hqy step ih =>
    refine Relation.ReflTransGen.tail ih ⟨step.1, ?_⟩
    rcases hagree _ (getNeighbors_inBounds step.1) with h | h
    · rw [← h]
      exact step.2
    · exact absurd (step.2.symm.trans h.2.1) hcol

/-- Conversely, if the whole `b0`-component of `q` avoids the cleared set,
reachability transfers from `b0` to the current board. -/
theorem reach_b_of_b0 {N : Nat} {b b0 : Board} {color : Cell}
    {D : Pos → Prop}
    (hagree : ∀ p, inBounds N p →
      (cellAt b p.1 p.2 = cellAt b0 p.1 p.2 ∨
        (cellAt b0 p.1 p.2 = color ∧ cellAt b p.1 p.2 = Cell.empty ∧ D p)))
    {q : Pos}
    (hclean : ∀ y, ReachC N b0 color q y → ¬ D y)
    {x : Pos} (hreach : ReachC N b0 color q x) : ReachC N b color q x := by
  induction hreach with
  | refl => exact Relation.ReflTransGen.refl
  | tail hqy step ih =>
    refine Relation.ReflTransGen.tail ih ⟨step.1, ?_⟩
    rcases hagree _ (getNeighbors_inBounds step.1) with h | h
    · rw [h]
      exact step.2
    · exact absurd h.2.2 (hclean _ (Relation.ReflTransGen.tail hqy step))

/-- Around a component disjoint from the cleared set, emptiness of neighbor
cells is the same on both boards. -/
theorem liberty_transfer {N : Nat} {b b0 : Board} {color : Cell}
    {D : Pos → Prop}
    (hagree : ∀ p, inBounds N p →
      (cellAt b p.1 p.2 = cellAt b0 p.1 p.2 ∨
        (cellAt b0 p.1 p.2 = color ∧ cellAt b p.1 p.2 = Cell.empty ∧ D p)))
    {q : Pos} (hclean : ∀ y, ReachC N b0 color q y → ¬ D y)
    {x : Pos} (hx : ReachC N b0 color q x) {n : Pos}
    (hn : n ∈ getNeighbors N x.1 x.2) :
    (cellAt b n.1 n.2 = Cell.empty ↔ cellAt b0 n.1 n.2 = Cell.empty) := by
  rcases hagree n (getNeighbors_inBounds hn) with h | h
  · rw [h]
  · exact absurd h.2.2 (hclean n (Relation.ReflTransGen.tail hx ⟨hn, h.1⟩))

/-- The semantic notion of a dead group coincides with the computable
zero-liberty test of the source functions. -/
theorem groupDead_iff_libzero (N : Nat) (board : Board) {color : Cell}
    (hcol : color ≠ Cell.empty) {p : Pos} (hpb : inBounds N p)
    (hpc : cellAt board p.1 p.2 = color) :
    GroupDead N board color p ↔
      countLiberties N board (getGroup N board p.1 p.2) = 0 := by
  have hspec := getGroup_spec N board
    (fun h => hcol (hpc.symm.trans h)) hpb
  rw [hpc] at hspec
  rw [countLiberties_eq_zero_iff]
  constructor
  · intro hdead x hx q hq
    exact hdead x ((hspec.2 x).mp hx) q hq
  · intro h x hx q hq
    exact h x ((hspec.2 x).mpr hx) q hq

/-- One step of the scan preserves the invariant, extending the scanned
prefix by the processed position. -/
theorem scan_step (N : Nat) (b0 : Board) {color : Cell}
    (hcol : color ≠ Cell.empty) (A : List Pos)
    (st : Board × List Pos × Nat) (q : Pos) (hq : inBounds N q)
    (hinv : ScanInv N b0 color A st) :
    ScanInv N b0 color (A ++ [q])
      (if cellAt st.1 q.1 q.2 = color ∧ ¬ st.2.1.contains q then
        if countLiberties N st.1 (getGroup N st.1 q.1 q.2) = 0 then
          ((getGroup N st.1 q.1 q.2).foldl
            (fun bb x => setCell bb x.1 x.2 Cell.empty) st.1,
            st.2.1 ++ getGroup N st.1 q.1 q.2,
            st.2.2 + (getGroup N st.1 q.1 q.2).length)
        else (st.1, st.2.1 ++ getGroup N st.1 q.1 q.2, st.2.2)
      else st) := by
  obtain ⟨b, visited, count⟩ := st
  obtain ⟨iwf, i2a, i2b, ivis, icount, ind⟩ := hinv
  dsimp only at iwf i2a i2b ivis icount ind ⊢
  have hMet : ∀ p, MetBy N b0 color (A ++ [q]) p ↔
      (MetBy N b0 color A p ∨
        (inBounds N q ∧ cellAt b0 q.1 q.2 = color ∧ ReachC N b0 color q p)) := by
    intro p
    unfold MetBy
    constructor
    · rintro ⟨a, ha, hab, hac, har⟩
      rcases List.mem_append.mp ha with h | h
      · exact Or.inl ⟨a, h, hab, hac, har⟩
      · rcases List.mem_singleton.mp h with rfl
        exact Or.inr ⟨hab, hac, har⟩
    · rintro (⟨a, ha, hx⟩ | ⟨h1, h2, h3⟩)
      · exact ⟨a, List.mem_append_left _ ha, hx⟩
      · exact ⟨q, List.mem_append_right _ (List.mem_singleton.mpr rfl),
          h1, h2, h3⟩
  by_cases hcond : cellAt b q.1 q.2 = color ∧ ¬ visited.contains q
  case neg =>
    rw [if_neg hcond]
    by_cases hqcol0 : cellAt b0 q.1 q.2 = color
    · by_cases hqv : q ∈ visited
      · have hMq : MetBy N b0 color A q := (ivis q).mp hqv
        have hAA : ∀ p, MetBy N b0 color (A ++ [q]) p ↔
            MetBy N b0 color A p := by
          intro p
          rw [hMet p]
          constructor
          · rintro (h | ⟨h1, h2, h3⟩)
            · exact h
            · obtain ⟨a, ha, hab, hac, har⟩ := hMq
              exact ⟨a, ha, hab, hac, Relation.ReflTransGen.trans har h3⟩
          · exact Or.inl
        refine ⟨iwf, ?_, ?_, ?_, icount, ind⟩
        · intro p hp hM hD
          exact i2a p hp ((hAA p).mp hM) hD
        · intro p hp hMD
          exact i2b p hp (fun h => hMD ⟨(hAA p).mpr h.1, h.2⟩)
        · intro p
          rw [ivis p, hAA p]
      · exfalso
        have hbq : cellAt b q.1 q.2 ≠ color := by
          intro h
          exact hcond ⟨h, fun hc => hqv (List.elem_iff.mp hc)⟩
        by_cases hMD : MetBy N b0 color A q ∧ GroupDead N b0 color q
        · exact hqv ((ivis q).mpr hMD.1)
        · exact hbq ((i2b q hq hMD).trans hqcol0)
    · have hAA : ∀ p, MetBy N b0 color (A ++ [q]) p ↔
          MetBy N b0 color A p := by
        intro p
        rw [hMet p]
        constructor
        · rintro (h | ⟨h1, h2, h3⟩)
          · exact h
          · exact absurd h2 hqcol0
        · exact Or.inl
      refine ⟨iwf, ?_, ?_, ?_, icount, ind⟩
      · intro p hp hM hD
        exact i2a p hp ((hAA p).mp hM) hD
      · intro p hp hMD
        exact i2b p hp (fun h => hMD ⟨(hAA p).mpr h.1, h.2⟩)
      · intro p
        rw [ivis p, hAA p]
  case pos =>
    rw [if_pos hcond]
    obtain ⟨hbqc, hqnv⟩ := hcond
    have hqv : q ∉ visited := fun h => hqnv (List.elem_iff.mpr h)
    have hnM : ¬ MetBy N b0 color A q := fun h => hqv ((ivis q).mpr h)
    have hq0c : cellAt b0 q.1 q.2 = color := by
      rw [← i2b q hq (fun h => hnM h.1)]
      exact hbqc
    have hclean : ∀ y, ReachC N b0 color q y →
        ¬ (MetBy N b0 color A y ∧ GroupDead N b0 color y) := by
      rintro y hy ⟨hMy, hDy⟩
      obtain ⟨a, ha, hab, hac, har⟩ := hMy
      exact hnM ⟨a, ha, hab, hac,
        Relation.ReflTransGen.trans har (reachC_symm hq hq0c hy)⟩
    have hagree : ∀ p, inBounds N p →
        (cellAt b p.1 p.2 = cellAt b0 p.1 p.2 ∨
          (cellAt b0 p.1 p.2 = color ∧ cellAt b p.1 p.2 = Cell.empty ∧
            (MetBy N b0 color A p ∧ GroupDead N b0 color p))) := by
      intro p hp
      by_cases hMD : MetBy N b0 color A p ∧ GroupDead N b0 color p
      · refine Or.inr ⟨?_, i2a p hp hMD.1 hMD.2, hMD⟩
        obtain ⟨a, ha, hab, hac, har⟩ := hMD.1
        exact reachC_colored hac har
      · exact Or.inl (i2b p hp hMD)
    have hreach_iff : ∀ x, ReachC N b color q x ↔ ReachC N b0 color q x := by
      intro x
      constructor
      · exact reach_b0_of_b hcol hagree
      · exact reach_b_of_b0 hagree hclean
    have hgspec := getGroup_spec N b
      (fun h => hcol (hbqc.symm.trans h)) hq
    rw [hbqc] at hgspec
    have hgmem : ∀ x, x ∈ getGroup N b q.1 q.2 ↔ ReachC N b0 color q x :=
      fun x => (hgspec.2 x).trans (hreach_iff x)
    have hgnd := hgspec.1
    have hgin : ∀ x ∈ getGroup N b q.1 q.2, inBounds N x :=
      fun x hx => reachC_inBounds hq ((hgmem x).mp hx)
    have hgcol0 : ∀ x ∈ getGroup N b q.1 q.2, cellAt b0 x.1 x.2 = color :=
      fun x hx => reachC_colored hq0c ((hgmem x).mp hx)
    have hlib : countLiberties N b (getGroup N b q.1 q.2) = 0 ↔
        GroupDead N b0 color q := by
      rw [countLiberties_eq_zero_iff]
      constructor
      · intro h x hx n hn hne
        exact h x ((hgmem x).mpr hx) n hn
          ((liberty_transfer hagree hclean hx hn).mpr hne)
      · intro hd x hx n hn hbe
        have hrx := (hgmem x).mp hx
        exact hd x hrx n hn ((liberty_transfer hagree hclean hrx hn).mp hbe)
    have hvisg : ∀ x, x ∈ visited → x ∉ getGroup N b q.1 q.2 := by
      intro x hxv hxg
      obtain ⟨a, ha, hab, hac, har⟩ := (ivis x).mp hxv
      exact hnM ⟨a, ha, hab, hac,
        har.trans (reachC_symm hq hq0c ((hgmem x).mp hxg))⟩
    have hnd2 : (visited ++ getGroup N b q.1 q.2).Nodup := by
      rw [List.nodup_append]
      exact ⟨ind, hgnd, fun x hxv => hvisg x hxv⟩
    have hvis2 : ∀ p, p ∈ visited ++ getGroup N b q.1 q.2 ↔
        MetBy N b0 color (A ++ [q]) p := by
      intro p
      rw [List.mem_append, ivis p, hMet p]
      constructor
      · rintro (h | h)
        · exact Or.inl h
        · exact Or.inr ⟨hq, hq0c, (hgmem p).mp h⟩
      · rintro (h | ⟨h1, h2, h3⟩)
        · exact Or.inl h
        · exact Or.inr ((hgmem p).mpr h3)
    by_cases hlz : countLiberties N b (getGroup N b q.1 q.2) = 0
    · rw [if_pos hlz]
      have hDq : GroupDead N b0 color q := hlib.mp hlz
      have hDg : ∀ x ∈ getGroup N b q.1 q.2, GroupDead N b0 color x := by
        intro x hx y hxy n hn
        exact hDq y (Relation.ReflTransGen.trans ((hgmem x).mp hx) hxy) n hn
      obtain ⟨wf2, hcell2⟩ :=
        clear_foldl_spec N (getGroup N b q.1 q.2) b iwf hgin
      refine ⟨wf2, ?_, ?_, hvis2, ?_, hnd2⟩
      · intro p hp hM hD
        rw [hcell2 p hp]
        by_cases hpg : p ∈ getGroup N b q.1 q.2
        · rw [if_pos hpg]
        · rw [if_neg hpg]
          rcases (hMet p).mp hM with hM2 | ⟨h1, h2, h3⟩
          · exact i2a p hp hM2 hD
          · exact absurd ((hgmem p).mpr h3) hpg
      · intro p hp hMD
        rw [hcell2 p hp]
        have hpg : p ∉ getGroup N b q.1 q.2 := by
          intro hpg
          exact hMD ⟨(hMet p).mpr (Or.inr ⟨hq, hq0c, (hgmem p).mp hpg⟩),
            hDg p hpg⟩
        rw [if_neg hpg]
        exact i2b p hp
          (fun h => hMD ⟨(hMet p).mpr (Or.inl h.1), h.2⟩)
      · rw [List.filter_append, List.length_append, icount]
        have hgg : (getGroup N b q.1 q.2).filter (fun p =>
            decide (cellAt b0 p.1 p.2 = color) &&
            decide (countLiberties N b0 (getGroup N b0 p.1 p.2) = 0)) =
            getGroup N b q.1 q.2 := by
          apply List.filter_eq_self.mpr
          intro x hx
          simp only [Bool.and_eq_true, decide_eq_true_eq]
          refine ⟨hgcol0 x hx, ?_⟩
          exact (groupDead_iff_libzero N b0 hcol (hgin x hx)
            (hgcol0 x hx)).mp (hDg x hx)
        rw [hgg]
    · rw [if_neg hlz]
      have hnDq : ¬ GroupDead N b0 color q := fun h => hlz (hlib.mpr h)
      have hnDg : ∀ x ∈ getGroup N b q.1 q.2, ¬ GroupDead N b0 color x := by
        intro x hx hD
        apply hnDq
        intro y hy n hn
        exact hD y (Relation.ReflTransGen.trans
          (reachC_symm hq hq0c ((hgmem x).mp hx)) hy) n hn
      refine ⟨iwf, ?_, ?_, hvis2, ?_, hnd2⟩
      · intro p hp hM hD
        rcases (hMet p).mp hM with hM2 | ⟨h1, h2, h3⟩
        · exact i2a p hp hM2 hD
        · exact absurd hD (hnDg p ((hgmem p).mpr h3))
      · intro p hp hMD
        exact i2b p hp
          (fun h => hMD ⟨(hMet p).mpr (Or.inl h.1), h.2⟩)
      · rw [List.filter_append, icount]
        have hgg : (getGroup N b q.1 q.2).filter (fun p =>
            decide (cellAt b0 p.1 p.2 = color) &&
            decide (countLiberties N b0 (getGroup N b0 p.1 p.2) = 0)) =
            ([] : List Pos) := by
          apply List.filter_eq_nil_iff.mpr
          intro x hx h
          simp only [Bool.and_eq_true, decide_eq_true_eq] at h
          exact hnDg x hx ((groupDead_iff_libzero N b0 hcol (hgin x hx)
            (hgcol0 x hx)).mpr h.2)
        rw [hgg, List.append_nil]

/-- Folding the scan step over any suffix of positions preserves the
invariant. -/
theorem scan_go (N : Nat) (b0 : Board) {color : Cell}
    (hcol : color ≠ Cell.empty) :
    ∀ (rest A : List Pos) (st : Board × List Pos × Nat),
      (∀ q ∈ rest, inBounds N q) →
      ScanInv N b0 color A st →
      ScanInv N b0 color (A ++ rest)
        (rest.foldl (fun st p =>
          if cellAt st.1 p.1 p.2 = color ∧ ¬ st.2.1.contains p then
            if countLiberties N st.1 (getGroup N st.1 p.1 p.2) = 0 then
              ((getGroup N st.1 p.1 p.2).foldl
                (fun bb x => setCell bb x.1 x.2 Cell.empty) st.1,
                st.2.1 ++ getGroup N st.1 p.1 p.2,
                st.2.2 + (getGroup N st.1 p.1 p.2).length)
            else (st.1, st.2.1 ++ getGroup N st.1 p.1 p.2, st.2.2)
          else st) st) := by
  intro rest
  induction rest with
  | nil =>
    intro A st _ hinv
    simpa using hinv
  | cons q rest ih =>
    intro A st hb hinv
    simp only [List.foldl_cons]
    have hstep := scan_step N b0 hcol A st q
      (hb q (List.mem_cons_self q rest)) hinv
    have h := ih (A ++ [q]) _
      (fun x hx => hb x (List.mem_cons_of_mem _ hx)) hstep
    rw [List.append_assoc] at h
    exact h

/-- Being met by a full row-major scan is just being an in-bounds stone of
the scanned color. -/
theorem metBy_rowMajor_iff (N : Nat) (b0 : Board) (color : Cell) (p : Pos) :
    MetBy N b0 color (rowMajor N) p ↔
      inBounds N p ∧ cellAt b0 p.1 p.2 = color := by
  constructor
  · rintro ⟨a, ha, hab, hac, har⟩
    exact ⟨reachC_inBounds hab har, reachC_colored hac har⟩
  · rintro ⟨hp, hc⟩
    exact ⟨p, mem_rowMajor.mpr hp, hp, hc, Relation.ReflTransGen.refl⟩

/-- C4: for every well-formed board and opponent color (ranging over the two
stone colors, as the sources call it), `removeCapturedGroups` clears to
`empty` exactly those opponent stones whose group computed on the input board
has zero liberties, changes no other cell, and returns the total number of
stones cleared, counted over a row-major scan of the input board. The
zero-liberty test on `getGroup` coincides with `GroupDead`, i.e. with the
maximal same-colored connected group having no empty neighbor, so the
clearing condition is the semantic one of the claim. Every part of the
conclusion is a pure function of the input board, so the resulting board and
count do not depend on the scan order. -/
theorem removeCapturedGroups_capture_characterization (N : Nat)
    (board : Board) (pl : Player) (wf : BoardWF N board) :
    BoardWF N (removeCapturedGroups N board pl.cell).1 ∧
    (∀ p : Pos, inBounds N p →
      cellAt (removeCapturedGroups N board pl.cell).1 p.1 p.2 =
        (if cellAt board p.1 p.2 = pl.cell ∧
            countLiberties N board (getGroup N board p.1 p.2) = 0
          then Cell.empty else cellAt board p.1 p.2)) ∧
    (∀ p : Pos, inBounds N p → cellAt board p.1 p.2 = pl.cell →
      (countLiberties N board (getGroup N board p.1 p.2) = 0 ↔
        GroupDead N board pl.cell p)) ∧
    (removeCapturedGroups N board pl.cell).2 =
      ((rowMajor N).filter (fun p =>
        decide (cellAt board p.1 p.2 = pl.cell) &&
        decide (countLiberties N board
          (getGroup N board p.1 p.2) = 0))).length := by
  have hcol : pl.cell ≠ Cell.empty := by
    cases pl <;> simp [Player.cell]
  have h0 : ScanInv N board pl.cell [] (board, [], 0) := by
    refine ⟨wf, ?_, ?_, ?_, rfl, List.nodup_nil⟩
    · rintro p hp ⟨a, ha, -⟩ -
      exact absurd ha (List.not_mem_nil a)
    · intro p hp _
      rfl
    · intro p
      constructor
      · intro h
        exact absurd h (List.not_mem_nil p)
      · rintro ⟨a, ha, -⟩
        exact absurd ha (List.not_mem_nil a)
  have hfin := scan_go N board hcol (rowMajor N) [] (board, [], 0)
    (fun q hq => mem_rowMajor.mp hq) h0
  rw [List.nil_append] at hfin
  obtain ⟨fwf, f2a, f2b, fvis, fcount, fnd⟩ := hfin
  refine ⟨fwf, ?_, ?_, ?_⟩
  · intro p hp
    have hbridge : (cellAt board p.1 p.2 = pl.cell ∧
        countLiberties N board (getGroup N board p.1 p.2) = 0) ↔
        (MetBy N board pl.cell (rowMajor N) p ∧
          GroupDead N board pl.cell p) := by
      constructor
      · rintro ⟨h1, h2⟩
        exact ⟨(metBy_rowMajor_iff N board pl.cell p).mpr ⟨hp, h1⟩,
          (groupDead_iff_libzero N board hcol hp h1).mpr h2⟩
      · rintro ⟨h1, h2⟩
        have hc := ((metBy_rowMajor_iff N board pl.cell p).mp h1).2
        exact ⟨hc, (groupDead_iff_libzero N board hcol hp hc).mp h2⟩
    by_cases hMD : MetBy N board pl.cell (rowMajor N) p ∧
        GroupDead N board pl.cell p
    · rw [if_pos (hbridge.mpr hMD)]
      exact f2a p hp hMD.1 hMD.2
    · rw [if_neg (fun h => hMD (hbridge.mp h))]
      exact f2b p hp hMD
  · intro p hp hc
    exact (groupDead_iff_libzero N board hcol hp hc).symm
  · have hnodupR : ((rowMajor N).filter (fun p =>
        decide (cellAt board p.1 p.2 = pl.cell))).Nodup :=
      (rowMajor_nodup N).filter _
    have hpm := (List.perm_ext_iff_of_nodup fnd hnodupR).mpr (fun a =>
      (fvis a).trans (by
        rw [metBy_rowMajor_iff, List.mem_filter, decide_eq_true_eq,
          mem_rowMajor]))
    have hlen := (hpm.filter (fun p =>
      decide (cellAt board p.1 p.2 = pl.cell) &&
      decide (countLiberties N board
        (getGroup N board p.1 p.2) = 0))).length_eq
    refine fcount.trans (hlen.trans ?_)
    rw [List.filter_filter]
    congr 1
    apply List.filter_congr
    intro a ha
    cases hx : decide (cellAt board a.1 a.2 = pl.cell) <;>
      cases hy : decide (countLiberties N board
        (getGroup N board a.1 a.2) = 0) <;> simp [hx, hy]

/-- Witness for C4: on a concrete well-formed 2x2 board where the single
white stone at (0,0) is surrounded by black stones, the hypotheses of the
characterization hold and the theorem applies. -/
theorem removeCapturedGroups_capture_characterization_witness :
    BoardWF 2 [[Cell.white, Cell.black], [Cell.black, Cell.empty]] ∧
    (BoardWF 2 (removeCapturedGroups 2
        [[Cell.white, Cell.black], [Cell.black, Cell.empty]]
        Player.white.cell).1 ∧
    (∀ p : Pos, inBounds 2 p →
      cellAt (removeCapturedGroups 2
          [[Cell.white, Cell.black], [Cell.black, Cell.empty]]
          Player.white.cell).1 p.1 p.2 =
        (if cellAt [[Cell.white, Cell.black], [Cell.black, Cell.empty]]
              p.1 p.2 = Player.white.cell ∧
            countLiberties 2
              [[Cell.white, Cell.black], [Cell.black, Cell.empty]]
              (getGroup 2 [[Cell.white, Cell.black], [Cell.black, Cell.empty]]
                p.1 p.2) = 0
          then Cell.empty
          else cellAt [[Cell.white, Cell.black], [Cell.black, Cell.empty]]
            p.1 p.2)) ∧
    (∀ p : Pos, inBounds 2 p →
      cellAt [[Cell.white, Cell.black], [Cell.black, Cell.empty]] p.1 p.2 =
        Player.white.cell →
      (countLiberties 2 [[Cell.white, Cell.black], [Cell.black, Cell.empty]]
          (getGroup 2 [[Cell.white, Cell.black], [Cell.black, Cell.empty]]
            p.1 p.2) = 0 ↔
        GroupDead 2 [[Cell.white, Cell.black], [Cell.black, Cell.empty]]
          Player.white.cell p)) ∧
    (removeCapturedGroups 2
        [[Cell.white, Cell.black], [Cell.black, Cell.empty]]
        Player.white.cell).2 =
      ((rowMajor 2).filter (fun p =>
        decide (cellAt [[Cell.white, Cell.black], [Cell.black, Cell.empty]]
          p.1 p.2 = Player.white.cell) &&
        decide (countLiberties 2
          [[Cell.white, Cell.black], [Cell.black, Cell.empty]]
          (getGroup 2 [[Cell.white, Cell.black], [Cell.black, Cell.empty]]
            p.1 p.2) = 0))).length) :=
  ⟨by decide,
    removeCapturedGroups_capture_characterization 2
      [[Cell.white, Cell.black], [Cell.black, Cell.empty]] Player.white
      (by decide)⟩

/-- The length of the candidate list: the trim keeps `min` of the kept cap
and the number of legal moves. -/
theorem getCandidateMoves_length (N : Nat) (board : Board) (player : Player)
    (forRoot : Bool) (s : AISettings)
    (h : 1 < (getLegalMoves N board player).length) :
    (getCandidateMoves N board player forRoot s).length =
      min (if forRoot then candidateCap N s
        else max 8 (3 * candidateCap N s / 4))
        (getLegalMoves N board player).length := by
  unfold getCandidateMoves
  dsimp only
  rw [if_neg (not_le.mpr h)]
  rw [List.length_map, List.length_take, (sortScoredDesc_perm _).length_eq,
    List.length_map]

/-- Reading any entry of a replicated list. -/
theorem getD_replicate {α : Type} (a d : α) :
    ∀ (n i : Nat), (List.replicate n a).getD i d = if i < n then a else d := by
  intro n
  induction n with
  | zero =>
    intro i
    simp
  | succ n ih =>
    intro i
    cases i with
    | zero => simp [List.replicate_succ]
    | succ j =>
      simp only [List.replicate_succ, List.getD_cons_succ]
      rw [ih j]
      by_cases h : j < n
      · rw [if_pos h, if_pos (by omega)]
      · rw [if_neg h, if_neg (by omega)]

/-- Every cell of the all-empty board reads as empty. -/
theorem cellAt_replicate_empty (N r c : Nat) :
    cellAt (List.replicate N (List.replicate N Cell.empty)) r c =
      Cell.empty := by
  unfold cellAt
  rw [getD_replicate]
  by_cases h : r < N
  · rw [if_pos h, getD_replicate]
    by_cases h2 : c < N
    · rw [if_pos h2]
    · rw [if_neg h2]
  · rw [if_neg h, List.getD_nil]

/-- The all-empty board is well-formed. -/
theorem replicate_board_wf (N : Nat) :
    BoardWF N (List.replicate N (List.replicate N Cell.empty)) := by
  constructor
  · simp
  · intro row hrow
    rw [List.eq_of_mem_replicate hrow]
    simp

/-- When the board holds no stone of the scanned color, the capture scan is
the identity and removes nothing. -/
theorem removeCapturedGroups_no_opponent (N : Nat) (b : Board) (color : Cell)
    (h : ∀ r c, cellAt b r c ≠ color) :
    removeCapturedGroups N b color = (b, 0) := by
  have hs : ∀ l : List Pos,
      (l.foldl (fun st p =>
        if cellAt st.1 p.1 p.2 = color ∧ ¬ st.2.1.contains p then
          if countLiberties N st.1 (getGroup N st.1 p.1 p.2) = 0 then
            ((getGroup N st.1 p.1 p.2).foldl
              (fun bb x => setCell bb x.1 x.2 Cell.empty) st.1,
              st.2.1 ++ getGroup N st.1 p.1 p.2,
              st.2.2 + (getGroup N st.1 p.1 p.2).length)
          else (st.1, st.2.1 ++ getGroup N st.1 p.1 p.2, st.2.2)
        else st) ((b, ([] : List Pos), 0) : Board × List Pos × Nat)) =
      (b, [], 0) := by
    intro l
    induction l with
    | nil => rfl
    | cons p rest ih =>
      simp only [List.foldl_cons]
      rw [if_neg (fun hc => h p.1 p.2 hc.1)]
      exact ih
  exact congrArg (fun st => (st.1, st.2.2)) (hs (rowMajor N))

/-- On the all-empty board of side at least 2, every in-bounds move is
legal: it never captures and the lone placed stone keeps a liberty. -/
theorem isLegalMove_empty_board (N : Nat) (hN : 2 ≤ N) (player : Player)
    {r c : Nat} (hr : r < N) (hc : c < N) :
    isLegalMove N (List.replicate N (List.replicate N Cell.empty)) r c
      player = true := by
  have hwf := replicate_board_wf N
  have hset := cellAt_setCell hwf hr hc player.cell
  have hopp : ∀ r2 c2,
      cellAt (setCell (List.replicate N (List.replicate N Cell.empty)) r c
        player.cell) r2 c2 ≠ (opponent player).cell := by
    intro r2 c2
    rw [hset r2 c2]
    by_cases h2 : r2 = r ∧ c2 = c
    · rw [if_pos h2]
      cases player <;> simp [Player.cell, opponent]
    · rw [if_neg h2, cellAt_replicate_empty]
      cases player <;> simp [Player.cell, opponent]
  have hres := removeCapturedGroups_no_opponent N
    (setCell (List.replicate N (List.replicate N Cell.empty)) r c
      player.cell) (opponent player).cell hopp
  have hself : cellAt (setCell (List.replicate N (List.replicate N
      Cell.empty)) r c player.cell) r c = player.cell := by
    rw [hset r c, if_pos ⟨rfl, rfl⟩]
  have hpc : player.cell ≠ Cell.empty := by
    cases player <;> simp [Player.cell]
  unfold isLegalMove
  dsimp only
  rw [if_neg (not_not_intro (cellAt_replicate_empty N r c))]
  rw [hres]
  dsimp only
  rw [if_neg ?_]
  rintro ⟨hlib, -⟩
  have hg := getGroup_spec N
    (setCell (List.replicate N (List.replicate N Cell.empty)) r c
      player.cell) (p := ((r, c) : Pos)) (by
        dsimp only
        rw [hself]
        exact hpc) ⟨hr, hc⟩
  have hmem : ((r, c) : Pos) ∈ getGroup N
      (setCell (List.replicate N (List.replicate N Cell.empty)) r c
        player.cell) r c :=
    (hg.2 (r, c)).mpr Relation.ReflTransGen.refl
  have hnolib := (countLiberties_eq_zero_iff N _ _).mp hlib ((r, c) : Pos) hmem
  by_cases hr1 : r + 1 < N
  · have hq : ((r + 1, c) : Pos) ∈ getNeighbors N r c := by
      rw [mem_getNeighbors]
      dsimp only
      exact ⟨⟨hr1, hc⟩, by omega⟩
    refine hnolib ((r + 1, c) : Pos) hq ?_
    dsimp only
    rw [hset (r + 1) c, if_neg (by omega), cellAt_replicate_empty]
  · have hq : ((r - 1, c) : Pos) ∈ getNeighbors N r c := by
      rw [mem_getNeighbors]
      dsimp only
      exact ⟨⟨by omega, hc⟩, by omega⟩
    refine hnolib ((r - 1, c) : Pos) hq ?_
    dsimp only
    rw [hset (r - 1) c, if_neg (by omega), cellAt_replicate_empty]

/-- On the all-empty board of side at least 2, the legal moves are exactly
the row-major enumeration of all positions. -/
theorem getLegalMoves_empty_board (N : Nat) (hN : 2 ≤ N) (player : Player) :
    getLegalMoves N (List.replicate N (List.replicate N Cell.empty)) player =
      rowMajor N := by
  unfold getLegalMoves
  apply List.filter_eq_self.mpr
  intro p hp
  obtain ⟨h1, h2⟩ := rowMajor_mem_lt hp
  exact isLegalMove_empty_board N hN player h1 h2

/-- C6 counterexample: on the empty 19x19 board with base 6 and depth 2
there are 361 legal moves, yet the code keeps only 6 root candidates, while
the claim's cap formula (clamp into `[6, base]` first, then add 2 for a
side of at least 19) prescribes keeping 8: the code adds the bonus to the
quantity being clamped, so its cap can never exceed `base`. With the
default base 16 and depth 2 the two formulas give 16 and 18. -/
theorem getCandidateMoves_trim_counterexample :
    (getCandidateMoves 19 (List.replicate 19 (List.replicate 19 Cell.empty))
        Player.black true ⟨Algorithm.alphabeta, 2, 0, 6⟩).length ≠
      min (specCandidateCap 19 ⟨Algorithm.alphabeta, 2, 0, 6⟩)
        (getLegalMoves 19 (List.replicate 19 (List.replicate 19 Cell.empty))
          Player.black).length := by
  have hleg := getLegalMoves_empty_board 19 (by omega) Player.black
  have hlen : (getLegalMoves 19
      (List.replicate 19 (List.replicate 19 Cell.empty))
      Player.black).length = 361 := by
    rw [hleg]
    rw [show rowMajor 19 = List.range 19 ×ˢ List.range 19 from rfl,
      List.length_product, List.length_range]
  have hcap : candidateCap 19 ⟨Algorithm.alphabeta, 2, 0, 6⟩ = 6 := by
    with_unfolding_all decide
  have hspec : specCandidateCap 19 ⟨Algorithm.alphabeta, 2, 0, 6⟩ = 8 := by
    with_unfolding_all decide
  rw [getCandidateMoves_length 19
    (List.replicate 19 (List.replicate 19 Cell.empty)) Player.black true
    ⟨Algorithm.alphabeta, 2, 0, 6⟩ (by omega), hlen, hcap, hspec]
  rw [if_pos (rfl : true = true)]
  omega
